import Mathlib

/-!
# istio-coredns-plugin: the resolution engine of `plugin.go`

A shallow embedding of `readServiceEntries`, `convertToVIPs`, `Query` and `a`
from `plugin.go`, followed by theorems about them.

Go strings are lists of characters, Go slices of `net.IP` are `Option (List IP)`
(`none` is the nil slice), a Go map is an association list with unique keys, and
a Go runtime panic is the error side of `Except`.
-/

namespace IstioCoreDNS

/-! ## Strings (package `strings`, `fmt`) -/

/-- Go `string`, as its list of characters. -/
abbrev Str := List Char

/-- Go `strings.Contains(s, c)` for a one-character substring `c`. -/
def Contains (s : Str) (c : Char) : Bool := s.elem c

/-- Go `strings.Split(s, sep)` for a one-character separator: all the pieces of `s`
between occurrences of `sep`; it never returns the empty list. -/
def Split : Str → Char → List Str
  | [], _ => [[]]
  | c :: cs, sep =>
    if c = sep then [] :: Split cs sep
    else
      match Split cs sep with
      | [] => [[c]]
      | p :: ps => (c :: p) :: ps

/-- Go `strings.Join(pieces, sep)` for a one-character separator. -/
def Join : List Str → Char → Str
  | [], _ => []
  | [p], _ => p
  | p :: q :: ps, sep => p ++ sep :: Join (q :: ps) sep

/-- Cut `s` at its first `sep`: the text before it and the text after it. -/
def cutFirst : Str → Char → Option (Str × Str)
  | [], _ => none
  | c :: cs, sep =>
    if c = sep then some ([], cs)
    else
      match cutFirst cs sep with
      | none => none
      | some (a, b) => some (c :: a, b)

/-- Go `strings.SplitN(s, sep, n)` for a one-character separator and `n ≥ 0`: at most
`n` pieces, the last one being the unsplit remainder (`n = 0` gives no piece). -/
def SplitN (s : Str) (sep : Char) : Nat → List Str
  | 0 => []
  | 1 => [s]
  | n + 2 =>
    match cutFirst s sep with
    | none => [s]
    | some (a, b) => a :: SplitN b sep (n + 1)

/-! ## Addresses (package `net`) -/

/-- Go `net.IP`: the bytes of an address (non-nil). -/
abbrev IP := List Nat

/-- Go `net.IPMask`, represented by what its `Size()` method reports: the number
of leading one bits and the total number of bits of the mask. -/
structure IPMask where
  ones : Nat
  bits : Nat
deriving DecidableEq, Repr

/-- Go `IPMask.Size()`. -/
def IPMask.Size (m : IPMask) : Nat × Nat := (m.ones, m.bits)

/-- Go `net.IPNet`. -/
structure IPNet where
  IP : IP
  Mask : IPMask
deriving DecidableEq, Repr

/-- What `net.ParseCIDR` returns: `(ip, network, nil)` when the text parses and
`(nil, nil, err)` when it does not. -/
inductive CIDRResult where
  | parsed (ip : IP) (network : IPNet)
  | failed (err : Str)
deriving DecidableEq, Repr

/-- A Go runtime panic. -/
inductive GoPanic where
  | nilPointerDereference
  | indexOutOfRange
deriving DecidableEq, Repr

instance instDecidableEqExcept {ε α : Type} [DecidableEq ε] [DecidableEq α] :
    DecidableEq (Except ε α)
  | .ok x, .ok y => if h : x = y then isTrue (by rw [h]) else isFalse (by intro e; cases e; exact h rfl)
  | .error x, .error y =>
    if h : x = y then isTrue (by rw [h]) else isFalse (by intro e; cases e; exact h rfl)
  | .ok _, .error _ => isFalse (by intro e; cases e)
  | .error _, .ok _ => isFalse (by intro e; cases e)

/-! ## Registry entries (`networking.ServiceEntry`) -/

/-- The `Resolution` field of a service entry. -/
inductive Resolution where
  | NONE
  | STATIC
  | DNS
deriving DecidableEq, Repr

/-- The fields of `networking.ServiceEntry` that `readServiceEntries` reads. -/
structure ServiceEntry where
  Hosts : List Str
  Addresses : List Str
  Resolution : Resolution
deriving DecidableEq, Repr

/-- One element of `configStore.ServiceEntries()`: a named configuration whose
`Spec` is a service entry. -/
structure Config where
  Name : Str
  Namespace : Str
  Spec : ServiceEntry
deriving DecidableEq, Repr

/-! ## DNS messages (package `dns`) -/

/-- Go `dns.TypeA`. -/
def TypeA : Nat := 1

/-- Go `dns.ClassINET`. -/
def ClassINET : Nat := 1

/-- Go `dns.RcodeSuccess`. -/
def RcodeSuccess : Nat := 0

/-- Go `dns.RcodeNameError`. -/
def RcodeNameError : Nat := 3

/-- Go `dns.Question`. -/
structure Question where
  Name : Str
  Qtype : Nat
  Qclass : Nat
deriving DecidableEq, Repr

/-- Go `dns.RR_Header`. -/
structure RR_Header where
  Name : Str
  Rrtype : Nat
  Class : Nat
  Ttl : Nat
deriving DecidableEq, Repr

/-- Go `dns.A`, the only kind of resource record this program builds. -/
structure RR where
  Hdr : RR_Header
  A : IP
deriving DecidableEq, Repr

/-- The fields of `dns.Msg` that `Query` reads or writes. -/
structure Msg where
  Id : Nat
  Response : Bool
  Authoritative : Bool
  Rcode : Nat
  Question : List Question
  Answer : List RR
deriving DecidableEq, Repr

/-- Go `response.SetReply(request)` on a fresh message, on the fields of `Msg`: the
reply carries the request id, the response flag, the success code and the first
question of the request. -/
def SetReply (request : Msg) : Msg :=
  { Id := request.Id
    Response := true
    Authoritative := false
    Rcode := RcodeSuccess
    Question := request.Question.take 1
    Answer := [] }

/-! ## The libraries the program calls -/

/-- The library functions `plugin.go` calls and does not define. -/
structure Deps where
  /-- Go `net.ParseIP`: `none` is the nil IP of a text that does not parse. -/
  ParseIP : Str → Option IP
  /-- Go `net.ParseCIDR`. -/
  ParseCIDR : Str → CIDRResult
  /-- Go `model.ValidateServiceEntry`: `none` is the nil error of a valid entry. -/
  ValidateServiceEntry : Str → Str → ServiceEntry → Option Str
  /-- Go `(*dns.Msg).Unpack` on a fresh message. -/
  Unpack : List Nat → Except Str Msg
  /-- Go `(*dns.Msg).Pack`. -/
  Pack : Msg → Except Str (List Nat)

/-! ## The table (`map[string][]net.IP`) -/

/-- Go `[]net.IP`: `none` is the nil slice, `some []` an empty slice that is not
nil. -/
abbrev Slice := Option (List IP)

/-- Go `map[string][]net.IP`, as an association list that holds each key once. -/
abbrev Table := List (Str × Slice)

/-- The map read `m[k]`: the stored value, or the nil slice for an absent key. -/
def Table.get : Table → Str → Slice
  | [], _ => none
  | (k', v) :: rest, k => if k' = k then v else Table.get rest k

/-- The map write `m[k] = v`: any earlier binding of `k` is replaced. -/
def Table.set (m : Table) (k : Str) (v : Slice) : Table :=
  (k, v) :: m.filter (fun p => decide (p.1 ≠ k))

/-- The keys of the map. -/
def Table.keys (m : Table) : List Str := m.map Prod.fst

/-- The receiver of `readServiceEntries` and `Query`, on the field both share:
`dnsEntries` is `none` (the nil map) until the first refresh installs a table. -/
structure IstioServiceEntries where
  dnsEntries : Option Table
deriving DecidableEq, Repr

/-! ## `convertToVIPs` -/

/-- One iteration of the loop of `convertToVIPs` on the token `address`, with
`vips` collected so far. A token with a slash goes to `net.ParseCIDR`, and the
guard on its result is `err != nil`: when the text does not parse, `network` is
the nil pointer and `network.Mask` faults; when it parses, the guarded block is
skipped and nothing is appended. -/
def convertStep (d : Deps) (vips : List IP) (address : Str) : Except GoPanic (List IP) :=
  if Contains address '/' then
    match d.ParseCIDR address with
    | .failed _ => .error .nilPointerDereference
    | .parsed _ _ => .ok vips
  else
    match d.ParseIP address with
    | some ip => .ok (vips ++ [ip])
    | none => .ok vips

/-- The loop of `convertToVIPs` over the remaining tokens. -/
def convertLoop (d : Deps) (vips : List IP) : List Str → Except GoPanic (List IP)
  | [] => .ok vips
  | address :: rest =>
    match convertStep d vips address with
    | .error p => .error p
    | .ok vips' => convertLoop d vips' rest

/-- Go `convertToVIPs(addresses)`. -/
def convertToVIPs (d : Deps) (addresses : List Str) : Except GoPanic (List IP) :=
  convertLoop d [] addresses

/-! ## `readServiceEntries` -/

/-- The key a hostname is stored under (lines 94 to 100): `host + "."`, or, when
`host` contains a star, `"." + parts[1] + "."` with `parts` the split of `host`
at its first dot; `parts[1]` is out of range when such a host has no dot. -/
def hostKey (host : Str) : Except GoPanic Str :=
  if Contains host '*' then
    match (SplitN host '.' 2).get? 1 with
    | none => .error .indexOutOfRange
    | some rest => .ok ('.' :: (rest ++ ['.']))
  else .ok (host ++ ['.'])

/-- The loop over `entry.Hosts`: every hostname key is bound to `vips`. -/
def hostLoop (vips : List IP) (dnsEntries : Table) : List Str → Except GoPanic Table
  | [] => .ok dnsEntries
  | host :: rest =>
    match hostKey host with
    | .error p => .error p
    | .ok key => hostLoop vips (dnsEntries.set key (some vips)) rest

/-- The loop over the service entries (lines 73 to 103). -/
def entryLoop (d : Deps) (dnsEntries : Table) : List Config → Except GoPanic Table
  | [] => .ok dnsEntries
  | e :: rest =>
    let entry := e.Spec
    if (d.ValidateServiceEntry e.Name e.Namespace entry).isSome then
      entryLoop d dnsEntries rest
    else if entry.Resolution = Resolution.NONE ∨ entry.Addresses.length = 0 then
      entryLoop d dnsEntries rest
    else
      match convertToVIPs d entry.Addresses with
      | .error p => .error p
      | .ok vips =>
        if vips.length = 0 then entryLoop d dnsEntries rest
        else
          match hostLoop vips dnsEntries entry.Hosts with
          | .error p => .error p
          | .ok dnsEntries' => entryLoop d dnsEntries' rest

/-- The table `readServiceEntries` builds in its local `dnsEntries`. -/
def buildTable (d : Deps) (serviceEntries : List Config) : Except GoPanic Table :=
  entryLoop d [] serviceEntries

/-- The copy of lines 105 to 109: a fresh map receives every binding. -/
def copyTable (src : Table) : Table :=
  src.foldl (fun m kv => m.set kv.1 kv.2) []

/-- Go `readServiceEntries`, with `serviceEntries` what the registry returned. -/
def readServiceEntries (d : Deps) (serviceEntries : List Config)
    (h : IstioServiceEntries) : Except GoPanic IstioServiceEntries :=
  match buildTable d serviceEntries with
  | .error p => .error p
  | .ok dnsEntries => .ok { h with dnsEntries := some (copyTable dnsEntries) }

/-! ## `Query` -/

/-- Go `a(zone, ips)`: one A record for each address. -/
def a (zone : Str) (ips : List IP) : List RR :=
  ips.map (fun ip =>
    { Hdr := { Name := zone, Rrtype := TypeA, Class := ClassINET, Ttl := 3600 }, A := ip })

/-- The wildcard loop of lines 164 to 168 on `pieces`: the value of `vips` when
the loop ends, and the keys it read from the table, in order. -/
def fallbackLoop (m : Table) : List Str → Slice × List Str
  | [] => (none, [])
  | p :: ps =>
    if (p :: ps).length > 2 then
      let key := '.' :: Join (p :: ps) '.'
      match m.get key with
      | some vips => (some vips, [key])
      | none => ((fallbackLoop m ps).1, key :: (fallbackLoop m ps).2)
    else (none, [])

/-- The keys the wildcard loop reads for the query name `name`, when the exact
lookup found nothing. -/
def testedKeys (m : Table) (name : Str) : List Str :=
  (fallbackLoop m (Split name '.').tail).2

/-- Lines 152 to 170: the value of `vips` for one A question named `name`. -/
def lookupA (dnsEntries : Option Table) (name : Str) : Slice :=
  match dnsEntries with
  | none => none
  | some m =>
    match m.get name with
    | some vips => some vips
    | none => (fallbackLoop m (Split name '.').tail).1

/-- The loop over `request.Question` (lines 149 to 179). -/
def questionLoop (h : IstioServiceEntries) (response : Msg) : List Question → Msg
  | [] => response
  | q :: qs =>
    if q.Qtype = TypeA then
      match lookupA h.dnsEntries q.Name with
      | some vips => questionLoop h { response with Answer := a q.Name vips } qs
      | none => questionLoop h response qs
    else questionLoop h response qs

/-- The response `Query` packs for an unpacked `request` (lines 144 to 183). -/
def respond (h : IstioServiceEntries) (request : Msg) : Msg :=
  let response := questionLoop h { SetReply request with Authoritative := true } request.Question
  if response.Answer.length = 0 then { response with Rcode := RcodeNameError } else response

/-- Go `Query`: the packed response, or the error returned. -/
def Query (d : Deps) (h : IstioServiceEntries) (msg : List Nat) : Except Str (List Nat) :=
  match d.Unpack msg with
  | .error err => .error ("failed to unmarshall dns query: ".toList ++ err)
  | .ok request =>
    match d.Pack (respond h request) with
    | .error err => .error ("failed to mashall dns response: ".toList ++ err)
    | .ok out => .ok out

/-! ## A reference instance of the libraries -/

/-- Value of a decimal digit. -/
def digitVal (c : Char) : Option Nat :=
  if 48 ≤ c.toNat ∧ c.toNat ≤ 57 then some (c.toNat - 48) else none

/-- Value of a non-empty run of decimal digits, with `acc` read so far. -/
def decimalFrom (acc : Nat) : Str → Option Nat
  | [] => some acc
  | c :: cs =>
    match digitVal c with
    | none => none
    | some v => decimalFrom (10 * acc + v) cs

/-- Value of a non-empty decimal numeral. -/
def decimal (s : Str) : Option Nat :=
  if s = [] then none else decimalFrom 0 s

/-- The four bytes of a dotted-decimal IPv4 text. -/
def parseIPv4 (s : Str) : Option (List Nat) :=
  match (Split s '.').map decimal with
  | [some b0, some b1, some b2, some b3] =>
    if b0 < 256 ∧ b1 < 256 ∧ b2 < 256 ∧ b3 < 256 then some [b0, b1, b2, b3] else none
  | _ => none

/-- The 16-byte form in which `net.ParseIP` returns an IPv4 address. -/
def v4InV6 (b : List Nat) : IP := [0, 0, 0, 0, 0, 0, 0, 0, 0, 0, 255, 255] ++ b

/-- A reference instance of the libraries, enough to run the program on IPv4
texts: dotted-decimal addresses, `address/length` prefixes with `length ≤ 32`,
a validator that wants at least one host, and a codec that fails on every
payload. -/
def refDeps : Deps where
  ParseIP := fun s => (parseIPv4 s).map v4InV6
  ParseCIDR := fun s =>
    match cutFirst s '/' with
    | none => .failed s
    | some (addr, len) =>
      match parseIPv4 addr, decimal len with
      | some b, some n =>
        if n ≤ 32 then .parsed (v4InV6 b) { IP := b, Mask := { ones := n, bits := 32 } }
        else .failed s
      | _, _ => .failed s
  ValidateServiceEntry := fun _ _ entry =>
    if entry.Hosts = [] then some "service entry must have at least one host".toList else none
  Unpack := fun _ => .error "unpack".toList
  Pack := fun _ => .error "pack".toList

/-! ## Notions used to state the properties -/

/-- An entry that `readServiceEntries` writes to the table, with the addresses
it writes: it passes validation, its resolution mode is not NONE, its address
list is not empty, and `convertToVIPs` returns the non-empty list `vips`. -/
def Eligible (d : Deps) (e : Config) (vips : List IP) : Prop :=
  d.ValidateServiceEntry e.Name e.Namespace e.Spec = none ∧
  e.Spec.Resolution ≠ Resolution.NONE ∧
  e.Spec.Addresses ≠ [] ∧
  convertToVIPs d e.Spec.Addresses = .ok vips ∧
  vips ≠ []

/-- An entry that the exclusion rule names: its resolution mode is NONE, or it
has no address, or `convertToVIPs` returns no address for it. -/
def Excluded (d : Deps) (e : Config) : Prop :=
  e.Spec.Resolution = Resolution.NONE ∨
  e.Spec.Addresses = [] ∨
  convertToVIPs d e.Spec.Addresses = .ok []

/-- The labels of a dot-terminated domain name: the text before each of its
dots. So `example.com.` has the two labels `example` and `com`, and
`foo.example.com.` has three. -/
def labels (name : Str) : List Str := (Split name '.').dropLast

/-- The number of labels of a dot-terminated domain name. -/
def labelCount (name : Str) : Nat := (labels name).length

/-- A token in CIDR form that `net.ParseCIDR` parses to a mask narrower than
the full width of the address. -/
def NarrowCIDR (d : Deps) (tok : Str) : Prop :=
  Contains tok '/' = true ∧
  ∃ ip network, d.ParseCIDR tok = .parsed ip network ∧
    network.Mask.Size.1 < network.Mask.Size.2

/-- A request that carries the single question `q`. -/
def singleQuestion (id : Nat) (q : Question) : Msg :=
  { Id := id, Response := false, Authoritative := false, Rcode := RcodeSuccess,
    Question := [q], Answer := [] }

/-- Some eligible entry of the list has a hostname whose key is `k`. -/
def Derives (d : Deps) (entries : List Config) (k : Str) : Prop :=
  ∃ e ∈ entries, ∃ vips, Eligible d e vips ∧ ∃ host ∈ e.Spec.Hosts, hostKey host = .ok k

/-- The first label of a hostname: the text before its first dot. -/
def firstLabel (host : Str) : Str := (Split host '.').headD []

/-- Go `dns.TypeAAAA`, a record kind other than A. -/
def TypeAAAA : Nat := 28

/-- A reference instance with a small codec, enough to run `Query` from payload
to payload: a payload is the message id, the question type and the character
codes of the question name; a packed response is the id, the response code,
the number of answers and the bytes of the answers. -/
def wireDeps : Deps :=
  { refDeps with
    Unpack := fun msg =>
      match msg with
      | id :: qtype :: name =>
        .ok { Id := id, Response := false, Authoritative := false, Rcode := RcodeSuccess,
              Question := [{ Name := name.map Char.ofNat, Qtype := qtype, Qclass := ClassINET }],
              Answer := [] }
      | _ => .error "short buffer".toList
    Pack := fun m =>
      .ok (m.Id :: m.Rcode :: m.Answer.length :: m.Answer.foldr (fun r acc => r.A ++ acc) []) }

/-! ## Example inputs -/

/-- The address 10.0.0.1 as `net.ParseIP` returns it. -/
def ip10_0_0_1 : IP := v4InV6 [10, 0, 0, 1]

/-- The address 10.0.0.2 as `net.ParseIP` returns it. -/
def ip10_0_0_2 : IP := v4InV6 [10, 0, 0, 2]

/-- A static entry for the host `a.example.com` at 10.0.0.1. -/
def exactEntry : Config :=
  { Name := "a".toList, Namespace := "default".toList,
    Spec := { Hosts := ["a.example.com".toList], Addresses := ["10.0.0.1".toList],
              Resolution := Resolution.STATIC } }

/-- A static entry for the wildcard host `*.example.com` at 10.0.0.2. -/
def wildcardEntry : Config :=
  { Name := "w".toList, Namespace := "default".toList,
    Spec := { Hosts := ["*.example.com".toList], Addresses := ["10.0.0.2".toList],
              Resolution := Resolution.STATIC } }

/-- The state before the first refresh: no table installed. -/
def initialState : IstioServiceEntries := { dnsEntries := none }

/-- A static entry for the host `b.example.com` whose only address is the
single-host prefix `10.0.0.1/32`. -/
def prefixEntry : Config :=
  { Name := "p".toList, Namespace := "default".toList,
    Spec := { Hosts := ["b.example.com".toList], Addresses := ["10.0.0.1/32".toList],
              Resolution := Resolution.STATIC } }

/-- A static entry for the host `c.example.com` with the literal address
`10.0.0.1` and the token `10.0.0.1/33`, which has a slash and is no CIDR. -/
def badPrefixEntry : Config :=
  { Name := "q".toList, Namespace := "default".toList,
    Spec := { Hosts := ["c.example.com".toList],
              Addresses := ["10.0.0.1".toList, "10.0.0.1/33".toList],
              Resolution := Resolution.STATIC } }

/-- An entry with resolution mode NONE for the host `n.example.com`. -/
def noneEntry : Config :=
  { Name := "n".toList, Namespace := "default".toList,
    Spec := { Hosts := ["n.example.com".toList], Addresses := ["10.0.0.9".toList],
              Resolution := Resolution.NONE } }

/-- A static entry for the host `d.example.com` whose only address is the
multi-host prefix `10.0.0.0/24`. -/
def rangeEntry : Config :=
  { Name := "r".toList, Namespace := "default".toList,
    Spec := { Hosts := ["d.example.com".toList], Addresses := ["10.0.0.0/24".toList],
              Resolution := Resolution.STATIC } }

/-- A second static entry for the host `a.example.com`, at 10.0.0.2. -/
def laterEntry : Config :=
  { Name := "l".toList, Namespace := "default".toList,
    Spec := { Hosts := ["a.example.com".toList], Addresses := ["10.0.0.2".toList],
              Resolution := Resolution.STATIC } }

/-- A state whose table binds `a.example.com.` to 10.0.0.1. -/
def exactState : IstioServiceEntries :=
  { dnsEntries := some [("a.example.com.".toList, some [ip10_0_0_1])] }

/-- A table with the exact key `foo.example.com.` at 10.0.0.1 and the wildcard
keys `.example.com.` and `.bar.example.com.` at 10.0.0.2 and 10.0.0.3. -/
def mixedTable : Table :=
  [("foo.example.com.".toList, some [ip10_0_0_1]),
   (".example.com.".toList, some [ip10_0_0_2]),
   (".bar.example.com.".toList, some [v4InV6 [10, 0, 0, 3]])]

/-- The payload of the reference codec for an A question on `a.example.com.`. -/
def examplePayload : List Nat := 7 :: TypeA :: "a.example.com.".toList.map Char.toNat

/-- A table with the wildcard key `.com.` of the single-label suffix `com`. -/
def topLevelTable : Table := [(".com.".toList, some [ip10_0_0_2])]

/-- The states the program can be in: the state before the first refresh, and
every state a refresh installs from a state the program can be in. -/
inductive Reachable (d : Deps) : IstioServiceEntries → Prop where
  | start : Reachable d { dnsEntries := none }
  | refresh (h h' : IstioServiceEntries) (serviceEntries : List Config) :
      Reachable d h → readServiceEntries d serviceEntries h = .ok h' → Reachable d h'

/-- What the comment on line 96 relies on: in an entry that passes validation,
a hostname that contains a star is of the form `*.foo.com`, a star label
followed by a dot and the rest of the name. -/
def ValidatesWildcardForm (d : Deps) : Prop :=
  ∀ name ns entry, d.ValidateServiceEntry name ns entry = none →
    ∀ host ∈ entry.Hosts, Contains host '*' = true → ∃ rest, host = '*' :: '.' :: rest

/-- A hostname without a star, or one that starts with a star and a dot. -/
def wildcardFormOk (host : Str) : Bool :=
  !Contains host '*' || decide (host.take 2 = ['*', '.'])

/-- A reference instance whose validator wants at least one host and wants
every host with a star to start with a star and a dot. -/
def strictDeps : Deps :=
  { refDeps with
    ValidateServiceEntry := fun _ _ entry =>
      if entry.Hosts = [] then some "service entry must have at least one host".toList
      else if entry.Hosts.all wildcardFormOk then none
      else some "invalid wildcard host".toList }

/-! ## Lemmas: strings -/

theorem Contains_eq_true_iff (s : Str) (c : Char) : Contains s c = true ↔ c ∈ s := by
  simp [Contains]

theorem Contains_eq_false_iff (s : Str) (c : Char) : Contains s c = false ↔ c ∉ s := by
  rw [← Contains_eq_true_iff]; simp

theorem Split_ne_nil (s : Str) (sep : Char) : Split s sep ≠ [] := by
  cases s with
  | nil => simp [Split]
  | cons c cs =>
    unfold Split
    split
    · simp
    · split <;> simp

theorem Split_cons_sep (cs : Str) (sep : Char) : Split (sep :: cs) sep = [] :: Split cs sep := by
  simp [Split]

theorem Split_cons_ne (c : Char) (cs : Str) (sep : Char) (p : Str) (ps : List Str)
    (hc : c ≠ sep) (h : Split cs sep = p :: ps) : Split (c :: cs) sep = (c :: p) :: ps := by
  rw [Split, if_neg hc, h]

theorem Join_cons (p : Str) (ps : List Str) (sep : Char) (hne : ps ≠ []) :
    Join (p :: ps) sep = p ++ sep :: Join ps sep := by
  cases ps with
  | nil => exact absurd rfl hne
  | cons q qs => rfl

theorem Join_Split (s : Str) (sep : Char) : Join (Split s sep) sep = s := by
  induction s with
  | nil => rfl
  | cons c cs ih =>
    by_cases hc : c = sep
    · subst hc
      rw [Split_cons_sep, Join_cons _ _ _ (Split_ne_nil cs c), ih]; rfl
    · obtain ⟨p, ps, hp⟩ := List.exists_cons_of_ne_nil (Split_ne_nil cs sep)
      rw [Split_cons_ne c cs sep p ps hc hp]
      rw [hp] at ih
      cases ps with
      | nil => simp only [Join] at ih ⊢; rw [ih]
      | cons q qs => simp only [Join] at ih ⊢; rw [← ih]; rfl

theorem Split_dotfree (s : Str) (sep : Char) (hs : sep ∉ s) : Split s sep = [s] := by
  induction s with
  | nil => rfl
  | cons c cs ih =>
    have hc : c ≠ sep := fun h => hs (by simp [h])
    have hcs : sep ∉ cs := fun h => hs (by simp [h])
    exact Split_cons_ne c cs sep cs [] hc (ih hcs)

theorem Split_append_sep (p rest : Str) (sep : Char) (hp : sep ∉ p) :
    Split (p ++ sep :: rest) sep = p :: Split rest sep := by
  induction p with
  | nil => exact Split_cons_sep rest sep
  | cons c cs ih =>
    have hc : c ≠ sep := fun h => hp (by simp [h])
    have hcs : sep ∉ cs := fun h => hp (by simp [h])
    exact Split_cons_ne c (cs ++ sep :: rest) sep cs (Split rest sep) hc (ih hcs)

theorem Split_Join (ps : List Str) (sep : Char) (hne : ps ≠ [])
    (hfree : ∀ p ∈ ps, sep ∉ p) : Split (Join ps sep) sep = ps := by
  induction ps with
  | nil => exact absurd rfl hne
  | cons p qs ih =>
    cases qs with
    | nil => exact Split_dotfree p sep (hfree p (by simp))
    | cons q qs =>
      rw [Join_cons p (q :: qs) sep (by simp), Split_append_sep p _ sep (hfree p (by simp)),
        ih (by simp) (fun x hx => hfree x (List.mem_cons_of_mem _ hx))]

theorem Split_pieces_free (s : Str) (sep : Char) : ∀ p ∈ Split s sep, sep ∉ p := by
  induction s with
  | nil => simp [Split]
  | cons c cs ih =>
    by_cases hc : c = sep
    · subst hc
      rw [Split_cons_sep]
      intro p hp
      rcases List.mem_cons.mp hp with h | h
      · subst h; simp
      · exact ih p h
    · obtain ⟨q, qs, hq⟩ := List.exists_cons_of_ne_nil (Split_ne_nil cs sep)
      rw [Split_cons_ne c cs sep q qs hc hq]
      rw [hq] at ih
      intro p hp
      rcases List.mem_cons.mp hp with h | h
      · subst h
        intro hmem
        rcases List.mem_cons.mp hmem with h1 | h1
        · exact hc h1.symm
        · exact ih q (by simp) h1
      · exact ih p (List.mem_cons_of_mem _ h)

theorem Join_append (xs ys : List Str) (sep : Char) (hx : xs ≠ []) (hy : ys ≠ []) :
    Join (xs ++ ys) sep = Join xs sep ++ sep :: Join ys sep := by
  induction xs with
  | nil => exact absurd rfl hx
  | cons x xs ih =>
    cases xs with
    | nil => exact Join_cons x ys sep hy
    | cons z zs =>
      have h1 : (x :: z :: zs) ++ ys = x :: ((z :: zs) ++ ys) := rfl
      rw [h1, Join_cons x _ sep (by simp), ih (by simp), Join_cons x (z :: zs) sep (by simp)]
      simp

theorem Join_length_cons (p : Str) (ps : List Str) (sep : Char) :
    (Join ps sep).length ≤ (Join (p :: ps) sep).length := by
  cases ps with
  | nil => simp [Join]
  | cons q qs => rw [Join_cons p (q :: qs) sep (by simp)]; simp; omega

theorem Join_tail_length_lt (p : Str) (ps : List Str) (sep : Char) (hne : ps ≠ []) :
    (Join ps sep).length < (Join (p :: ps) sep).length := by
  rw [Join_cons p ps sep hne]; simp; omega

theorem hostKey_plain (host : Str) (h : Contains host '*' = false) :
    hostKey host = .ok (host ++ ['.']) := by
  simp [hostKey, h]

theorem hostKey_wildcard (S : Str) :
    hostKey ('*' :: '.' :: S) = .ok ('.' :: (S ++ ['.'])) := by
  simp [hostKey, Contains, SplitN, cutFirst]

/-! ## Lemmas: the table -/

theorem Table.get_cons (k' : Str) (v : Slice) (rest : Table) (k : Str) :
    Table.get ((k', v) :: rest) k = if k' = k then v else Table.get rest k := rfl

theorem Table.get_filter_ne (m : Table) (k k' : Str) :
    Table.get (m.filter (fun p => decide (p.1 ≠ k))) k' = if k = k' then none else Table.get m k' := by
  induction m with
  | nil => simp [Table.get]
  | cons kv rest ih =>
    obtain ⟨k0, v0⟩ := kv
    by_cases h0 : k0 = k
    · subst h0
      simp only [List.filter, ne_eq, not_true_eq_false, decide_False]
      rw [ih, Table.get_cons]
      by_cases h1 : k0 = k' <;> simp [h1]
    · have hf : List.filter (fun p : Str × Slice => decide (p.1 ≠ k)) ((k0, v0) :: rest)
          = (k0, v0) :: List.filter (fun p : Str × Slice => decide (p.1 ≠ k)) rest := by
        simp [List.filter, h0]
      rw [hf, Table.get_cons, Table.get_cons, ih]
      by_cases h1 : k0 = k'
      · subst h1
        simp [Ne.symm h0]
      · simp [h1]

theorem Table.get_set (m : Table) (k : Str) (v : Slice) (k' : Str) :
    Table.get (m.set k v) k' = if k = k' then v else Table.get m k' := by
  unfold Table.set
  rw [Table.get_cons, Table.get_filter_ne]
  by_cases h : k = k' <;> simp [h]

theorem Table.mem_keys_set (m : Table) (k : Str) (v : Slice) (k' : Str) :
    k' ∈ (m.set k v).keys ↔ k' = k ∨ k' ∈ m.keys := by
  simp only [Table.keys, Table.set, List.map_cons, List.mem_cons, List.mem_map, List.mem_filter]
  constructor
  · rintro (h | ⟨kv, ⟨hm, _⟩, rfl⟩)
    · exact Or.inl h
    · exact Or.inr ⟨kv, hm, rfl⟩
  · rintro (h | ⟨kv, hm, rfl⟩)
    · exact Or.inl h
    · by_cases hk : kv.1 = k
      · exact Or.inl hk
      · exact Or.inr ⟨kv, ⟨hm, by simpa using hk⟩, rfl⟩

theorem Table.nodup_set (m : Table) (k : Str) (v : Slice) (hn : m.keys.Nodup) :
    (m.set k v).keys.Nodup := by
  simp only [Table.keys, Table.set, List.map_cons, List.nodup_cons]
  refine ⟨?_, ?_⟩
  · intro hmem
    obtain ⟨kv, hkv, hk⟩ := List.mem_map.mp hmem
    have := (List.mem_filter.mp hkv).2
    simp at this
    exact this hk
  · exact (List.Nodup.sublist ((List.filter_sublist m).map Prod.fst) hn)

theorem Table.get_of_not_mem_keys (m : Table) (k : Str) (h : k ∉ m.keys) :
    Table.get m k = none := by
  induction m with
  | nil => rfl
  | cons kv rest ih =>
    obtain ⟨k0, v0⟩ := kv
    simp only [Table.keys, List.map_cons, List.mem_cons, not_or] at h
    rw [Table.get_cons, if_neg (Ne.symm h.1)]
    exact ih h.2

theorem foldl_set_get (l : Table) (acc : Table) (k : Str) (hn : l.keys.Nodup) :
    Table.get (l.foldl (fun m kv => m.set kv.1 kv.2) acc) k
      = if k ∈ l.keys then Table.get l k else Table.get acc k := by
  induction l generalizing acc with
  | nil => simp [Table.keys]
  | cons kv rest ih =>
    obtain ⟨k0, v0⟩ := kv
    simp only [Table.keys, List.map_cons, List.nodup_cons] at hn
    rw [List.foldl_cons, ih _ hn.2]
    have hkeys : Table.keys ((k0, v0) :: rest) = k0 :: Table.keys rest := rfl
    by_cases hk : k0 = k
    · subst hk
      have h1 : k0 ∉ Table.keys rest := hn.1
      have h2 : k0 ∈ Table.keys ((k0, v0) :: rest) := by rw [hkeys]; simp
      rw [if_neg h1, if_pos h2, Table.get_set, if_pos rfl, Table.get_cons, if_pos rfl]
    · by_cases hm : k ∈ Table.keys rest
      · have h2 : k ∈ Table.keys ((k0, v0) :: rest) := by rw [hkeys]; simp [hm]
        rw [if_pos hm, if_pos h2, Table.get_cons, if_neg hk]
      · have h2 : k ∉ Table.keys ((k0, v0) :: rest) := by
          rw [hkeys]; simp only [List.mem_cons, not_or]; exact ⟨Ne.symm hk, hm⟩
        rw [if_neg hm, if_neg h2, Table.get_set, if_neg hk]

theorem foldl_set_keys (l : Table) (acc : Table) (k : Str) :
    k ∈ (l.foldl (fun m kv => m.set kv.1 kv.2) acc).keys ↔ k ∈ l.keys ∨ k ∈ acc.keys := by
  induction l generalizing acc with
  | nil => simp [Table.keys]
  | cons kv rest ih =>
    rw [List.foldl_cons, ih, Table.mem_keys_set]
    simp only [Table.keys, List.map_cons, List.mem_cons]
    tauto

theorem foldl_set_nodup (l : Table) (acc : Table) (hn : acc.keys.Nodup) :
    (l.foldl (fun m kv => m.set kv.1 kv.2) acc).keys.Nodup := by
  induction l generalizing acc with
  | nil => exact hn
  | cons kv rest ih =>
    rw [List.foldl_cons]
    exact ih _ (Table.nodup_set acc kv.1 kv.2 hn)

theorem copyTable_get (m : Table) (k : Str) (hn : m.keys.Nodup) :
    Table.get (copyTable m) k = Table.get m k := by
  unfold copyTable
  rw [foldl_set_get m [] k hn]
  by_cases h : k ∈ m.keys
  · rw [if_pos h]
  · rw [if_neg h, Table.get_of_not_mem_keys m k h]; rfl

theorem copyTable_keys (m : Table) (k : Str) : k ∈ (copyTable m).keys ↔ k ∈ m.keys := by
  unfold copyTable
  rw [foldl_set_keys]
  simp [Table.keys]

/-! ## Lemmas: building the table -/

theorem cutFirst_of_mem (s : Str) (sep : Char) (h : sep ∈ s) :
    ∃ a b, cutFirst s sep = some (a, b) := by
  induction s with
  | nil => simp at h
  | cons c cs ih =>
    by_cases hc : c = sep
    · exact ⟨[], cs, by simp [cutFirst, hc]⟩
    · have hcs : sep ∈ cs := by
        rcases List.mem_cons.mp h with h1 | h1
        · exact absurd h1.symm hc
        · exact h1
      obtain ⟨a, b, hab⟩ := ih hcs
      exact ⟨c :: a, b, by simp [cutFirst, hc, hab]⟩

theorem hostKey_ok (host : Str) (h : Contains host '*' = true → Contains host '.' = true) :
    ∃ key, hostKey host = .ok key := by
  unfold hostKey
  by_cases hs : Contains host '*' = true
  · obtain ⟨a, b, hab⟩ := cutFirst_of_mem host '.' ((Contains_eq_true_iff host '.').mp (h hs))
    rw [if_pos hs]
    exact ⟨'.' :: (b ++ ['.']), by simp [SplitN, hab]⟩
  · rw [if_neg hs]
    exact ⟨_, rfl⟩

theorem hostLoop_cons (vips : List IP) (t : Table) (host : Str) (rest : List Str) (key : Str)
    (hk : hostKey host = .ok key) :
    hostLoop vips t (host :: rest) = hostLoop vips (t.set key (some vips)) rest := by
  simp [hostLoop, hk]

theorem hostLoop_cons_ok (vips : List IP) (t t' : Table) (host : Str) (rest : List Str)
    (h : hostLoop vips t (host :: rest) = .ok t') :
    ∃ key, hostKey host = .ok key ∧ hostLoop vips (t.set key (some vips)) rest = .ok t' := by
  unfold hostLoop at h
  cases hk : hostKey host with
  | error p => rw [hk] at h; cases h
  | ok key => rw [hk] at h; exact ⟨key, rfl, h⟩

theorem hostLoop_ok (vips : List IP) (t : Table) (hosts : List Str)
    (h : ∀ host ∈ hosts, Contains host '*' = true → Contains host '.' = true) :
    ∃ t', hostLoop vips t hosts = .ok t' := by
  induction hosts generalizing t with
  | nil => exact ⟨t, rfl⟩
  | cons host rest ih =>
    obtain ⟨key, hk⟩ := hostKey_ok host (h host (by simp))
    rw [hostLoop_cons vips t host rest key hk]
    exact ih _ (fun x hx => h x (List.mem_cons_of_mem _ hx))

theorem hostLoop_nodup (vips : List IP) (t t' : Table) (hosts : List Str)
    (h : hostLoop vips t hosts = .ok t') (hn : t.keys.Nodup) : t'.keys.Nodup := by
  induction hosts generalizing t with
  | nil => cases h; exact hn
  | cons host rest ih =>
    obtain ⟨key, _, h2⟩ := hostLoop_cons_ok vips t t' host rest h
    exact ih _ h2 (Table.nodup_set t key _ hn)

theorem hostLoop_get_other (vips : List IP) (t t' : Table) (hosts : List Str) (k : Str)
    (h : hostLoop vips t hosts = .ok t')
    (hk : ∀ host ∈ hosts, hostKey host ≠ .ok k) : t'.get k = t.get k := by
  induction hosts generalizing t with
  | nil => cases h; rfl
  | cons host rest ih =>
    obtain ⟨key, h1, h2⟩ := hostLoop_cons_ok vips t t' host rest h
    rw [ih _ h2 (fun x hx => hk x (List.mem_cons_of_mem _ hx)), Table.get_set]
    have hne : key ≠ k := by
      intro e; subst e; exact hk host (by simp) h1
    rw [if_neg hne]

theorem hostLoop_get_written (vips : List IP) (t t' : Table) (hosts : List Str) (k : Str)
    (h : hostLoop vips t hosts = .ok t')
    (hk : ∃ host ∈ hosts, hostKey host = .ok k) : t'.get k = some vips := by
  induction hosts generalizing t with
  | nil => obtain ⟨_, hm, _⟩ := hk; simp at hm
  | cons host rest ih =>
    obtain ⟨key, h1, h2⟩ := hostLoop_cons_ok vips t t' host rest h
    by_cases hr : ∃ x ∈ rest, hostKey x = .ok k
    · exact ih _ h2 hr
    · have hr' : ∀ x ∈ rest, hostKey x ≠ .ok k := fun x hx hxk => hr ⟨x, hx, hxk⟩
      rw [hostLoop_get_other vips _ t' rest k h2 hr', Table.get_set]
      obtain ⟨x, hx, hxk⟩ := hk
      rcases List.mem_cons.mp hx with e | e
      · subst e
        rw [h1] at hxk
        cases hxk
        rw [if_pos rfl]
      · exact absurd ⟨x, e, hxk⟩ hr

theorem hostLoop_keys (vips : List IP) (t t' : Table) (hosts : List Str) (k : Str)
    (h : hostLoop vips t hosts = .ok t') :
    k ∈ t'.keys ↔ (∃ host ∈ hosts, hostKey host = .ok k) ∨ k ∈ t.keys := by
  induction hosts generalizing t with
  | nil => cases h; simp
  | cons host rest ih =>
    obtain ⟨key, h1, h2⟩ := hostLoop_cons_ok vips t t' host rest h
    rw [ih _ h2, Table.mem_keys_set]
    constructor
    · rintro (⟨x, hx, hxk⟩ | h3 | h3)
      · exact Or.inl ⟨x, List.mem_cons_of_mem _ hx, hxk⟩
      · subst h3; exact Or.inl ⟨host, by simp, h1⟩
      · exact Or.inr h3
    · rintro (⟨x, hx, hxk⟩ | h3)
      · rcases List.mem_cons.mp hx with e | e
        · subst e
          rw [h1] at hxk
          cases hxk
          exact Or.inr (Or.inl rfl)
        · exact Or.inl ⟨x, e, hxk⟩
      · exact Or.inr (Or.inr h3)

theorem entryLoop_cons_eligible (d : Deps) (t : Table) (e : Config) (rest : List Config)
    (vips : List IP) (he : Eligible d e vips) :
    entryLoop d t (e :: rest) =
      match hostLoop vips t e.Spec.Hosts with
      | .error p => .error p
      | .ok t1 => entryLoop d t1 rest := by
  obtain ⟨h1, h2, h3, h4, h5⟩ := he
  simp [entryLoop, h1, h2, h3, h4, h5]

theorem entryLoop_cons_invalid (d : Deps) (t : Table) (e : Config) (rest : List Config)
    (he : d.ValidateServiceEntry e.Name e.Namespace e.Spec ≠ none) :
    entryLoop d t (e :: rest) = entryLoop d t rest := by
  have : (d.ValidateServiceEntry e.Name e.Namespace e.Spec).isSome = true := by
    cases hv : d.ValidateServiceEntry e.Name e.Namespace e.Spec with
    | none => exact absurd hv he
    | some _ => rfl
  simp [entryLoop, this]

theorem entryLoop_cons_excluded (d : Deps) (t : Table) (e : Config) (rest : List Config)
    (he : Excluded d e) : entryLoop d t (e :: rest) = entryLoop d t rest := by
  by_cases hv : d.ValidateServiceEntry e.Name e.Namespace e.Spec = none
  · rcases he with h | h | h
    · simp [entryLoop, hv, h]
    · simp [entryLoop, hv, h]
    · simp [entryLoop, hv, h]
  · exact entryLoop_cons_invalid d t e rest hv

theorem entryLoop_cons_cases (d : Deps) (t t' : Table) (e : Config) (rest : List Config)
    (h : entryLoop d t (e :: rest) = .ok t') :
    (entryLoop d t rest = .ok t' ∧ ∀ vips, ¬ Eligible d e vips) ∨
    (∃ vips t1, Eligible d e vips ∧ hostLoop vips t e.Spec.Hosts = .ok t1 ∧
      entryLoop d t1 rest = .ok t') := by
  by_cases hv : d.ValidateServiceEntry e.Name e.Namespace e.Spec = none
  · by_cases hx : Excluded d e
    · left
      rw [entryLoop_cons_excluded d t e rest hx] at h
      refine ⟨h, ?_⟩
      rintro vips ⟨_, h2, h3, h4, h5⟩
      rcases hx with x | x | x
      · exact h2 x
      · exact h3 x
      · rw [x] at h4; cases h4; exact h5 rfl
    · have hres : e.Spec.Resolution ≠ Resolution.NONE := fun x => hx (Or.inl x)
      have haddr : e.Spec.Addresses ≠ [] := fun x => hx (Or.inr (Or.inl x))
      cases hc : convertToVIPs d e.Spec.Addresses with
      | error p => simp [entryLoop, hv, hres, haddr, hc] at h
      | ok vips =>
        have hne : vips ≠ [] := by
          intro x; subst x; exact hx (Or.inr (Or.inr hc))
        have hel : Eligible d e vips := ⟨hv, hres, haddr, hc, hne⟩
        rw [entryLoop_cons_eligible d t e rest vips hel] at h
        right
        cases hh : hostLoop vips t e.Spec.Hosts with
        | error p => rw [hh] at h; cases h
        | ok t1 => rw [hh] at h; exact ⟨vips, t1, hel, hh, h⟩
  · left
    rw [entryLoop_cons_invalid d t e rest hv] at h
    exact ⟨h, fun vips hel => hv hel.1⟩

theorem entryLoop_append (d : Deps) (t : Table) (l1 l2 : List Config) :
    entryLoop d t (l1 ++ l2) =
      match entryLoop d t l1 with
      | .error p => .error p
      | .ok t1 => entryLoop d t1 l2 := by
  induction l1 generalizing t with
  | nil => rfl
  | cons e rest ih =>
    rw [List.cons_append]
    by_cases hv : d.ValidateServiceEntry e.Name e.Namespace e.Spec = none
    · by_cases hx : Excluded d e
      · rw [entryLoop_cons_excluded d t e _ hx, entryLoop_cons_excluded d t e _ hx, ih]
      · have hres : e.Spec.Resolution ≠ Resolution.NONE := fun x => hx (Or.inl x)
        have haddr : e.Spec.Addresses ≠ [] := fun x => hx (Or.inr (Or.inl x))
        cases hc : convertToVIPs d e.Spec.Addresses with
        | error p => simp [entryLoop, hv, hres, haddr, hc]
        | ok vips =>
          have hne : vips ≠ [] := by
            intro x; subst x; exact hx (Or.inr (Or.inr hc))
          have hel : Eligible d e vips := ⟨hv, hres, haddr, hc, hne⟩
          rw [entryLoop_cons_eligible d t e _ vips hel, entryLoop_cons_eligible d t e _ vips hel]
          cases hh : hostLoop vips t e.Spec.Hosts with
          | error p => rfl
          | ok t1 => exact ih t1
    · rw [entryLoop_cons_invalid d t e _ hv, entryLoop_cons_invalid d t e _ hv, ih]

theorem entryLoop_nodup (d : Deps) (t t' : Table) (entries : List Config)
    (h : entryLoop d t entries = .ok t') (hn : t.keys.Nodup) : t'.keys.Nodup := by
  induction entries generalizing t with
  | nil => cases h; exact hn
  | cons e rest ih =>
    rcases entryLoop_cons_cases d t t' e rest h with ⟨h1, _⟩ | ⟨vips, t1, _, h2, h3⟩
    · exact ih t h1 hn
    · exact ih t1 h3 (hostLoop_nodup vips t t1 _ h2 hn)

theorem entryLoop_get_other (d : Deps) (t t' : Table) (entries : List Config) (k : Str)
    (h : entryLoop d t entries = .ok t')
    (hk : ∀ e ∈ entries, ∀ vips, Eligible d e vips →
      ∀ host ∈ e.Spec.Hosts, hostKey host ≠ .ok k) :
    t'.get k = t.get k := by
  induction entries generalizing t with
  | nil => cases h; rfl
  | cons e rest ih =>
    have hrest : ∀ x ∈ rest, ∀ vips, Eligible d x vips →
        ∀ host ∈ x.Spec.Hosts, hostKey host ≠ .ok k :=
      fun x hx => hk x (List.mem_cons_of_mem _ hx)
    rcases entryLoop_cons_cases d t t' e rest h with ⟨h1, _⟩ | ⟨vips, t1, hel, h2, h3⟩
    · exact ih t h1 hrest
    · rw [ih t1 h3 hrest]
      exact hostLoop_get_other vips t t1 _ k h2 (hk e (by simp) vips hel)

theorem entryLoop_inv (Q : Str → Slice → Prop) (d : Deps) (t t' : Table)
    (entries : List Config)
    (h : entryLoop d t entries = .ok t')
    (h0 : ∀ k ∈ t.keys, Q k (t.get k))
    (hstep : ∀ e ∈ entries, ∀ vips, Eligible d e vips →
      ∀ host ∈ e.Spec.Hosts, ∀ key, hostKey host = .ok key → Q key (some vips)) :
    ∀ k ∈ t'.keys, Q k (t'.get k) := by
  induction entries generalizing t with
  | nil => cases h; exact h0
  | cons e rest ih =>
    have hrest : ∀ x ∈ rest, ∀ vips, Eligible d x vips →
        ∀ host ∈ x.Spec.Hosts, ∀ key, hostKey host = .ok key → Q key (some vips) :=
      fun x hx => hstep x (List.mem_cons_of_mem _ hx)
    rcases entryLoop_cons_cases d t t' e rest h with ⟨h1, _⟩ | ⟨vips, t1, hel, h2, h3⟩
    · exact ih t h1 h0 hrest
    · refine ih t1 h3 ?_ hrest
      intro k hk
      by_cases hw : ∃ host ∈ e.Spec.Hosts, hostKey host = .ok k
      · rw [hostLoop_get_written vips t t1 _ k h2 hw]
        obtain ⟨host, hm, hkey⟩ := hw
        exact hstep e (by simp) vips hel host hm k hkey
      · have hw' : ∀ host ∈ e.Spec.Hosts, hostKey host ≠ .ok k :=
          fun host hm hkey => hw ⟨host, hm, hkey⟩
        rw [hostLoop_get_other vips t t1 _ k h2 hw']
        rcases (hostLoop_keys vips t t1 _ k h2).mp hk with h4 | h4
        · exact absurd h4 hw
        · exact h0 k h4

theorem buildTable_nodup (d : Deps) (entries : List Config) (t : Table)
    (h : buildTable d entries = .ok t) : t.keys.Nodup :=
  entryLoop_nodup d [] t entries h (by simp [Table.keys])

theorem readServiceEntries_ok (d : Deps) (entries : List Config) (h0 h1 : IstioServiceEntries)
    (h : readServiceEntries d entries h0 = .ok h1) :
    ∃ t, buildTable d entries = .ok t ∧ h1.dnsEntries = some (copyTable t) := by
  unfold readServiceEntries at h
  cases hb : buildTable d entries with
  | error p => rw [hb] at h; cases h
  | ok t => rw [hb] at h; cases h; exact ⟨t, rfl, rfl⟩

theorem readServiceEntries_of_build (d : Deps) (entries : List Config) (h0 : IstioServiceEntries)
    (t : Table) (h : buildTable d entries = .ok t) :
    readServiceEntries d entries h0 = .ok { h0 with dnsEntries := some (copyTable t) } := by
  simp [readServiceEntries, h]

/-! ## Lemmas: address conversion -/

theorem convertLoop_literals (d : Deps) (acc : List IP) (toks : List Str) (ips : List IP)
    (h : List.Forall₂ (fun tok ip => Contains tok '/' = false ∧ d.ParseIP tok = some ip) toks ips) :
    convertLoop d acc toks = .ok (acc ++ ips) := by
  induction toks generalizing acc ips with
  | nil =>
    cases h
    simp [convertLoop]
  | cons tok rest ih =>
    cases h with
    | cons hd htl =>
      rename_i ip ips'
      have hstep : convertStep d acc tok = .ok (acc ++ [ip]) := by
        simp [convertStep, hd.1, hd.2]
      simp only [convertLoop, hstep]
      rw [ih (acc ++ [ip]) ips' htl]
      simp

theorem convertStep_parsed (d : Deps) (vips : List IP) (tok : Str) (ip : IP) (network : IPNet)
    (hs : Contains tok '/' = true) (hp : d.ParseCIDR tok = .parsed ip network) :
    convertStep d vips tok = .ok vips := by
  simp [convertStep, hs, hp]

theorem convertLoop_parsed (d : Deps) (acc : List IP) (toks : List Str)
    (h : ∀ tok ∈ toks, Contains tok '/' = true ∧ ∃ ip network, d.ParseCIDR tok = .parsed ip network) :
    convertLoop d acc toks = .ok acc := by
  induction toks with
  | nil => rfl
  | cons tok rest ih =>
    obtain ⟨hs, ip, network, hp⟩ := h tok (by simp)
    simp only [convertLoop, convertStep_parsed d acc tok ip network hs hp]
    exact ih (fun x hx => h x (List.mem_cons_of_mem _ hx))

theorem eligible_of_literals (d : Deps) (e : Config) (ips : List IP)
    (hvalid : d.ValidateServiceEntry e.Name e.Namespace e.Spec = none)
    (hres : e.Spec.Resolution ≠ Resolution.NONE)
    (hne : e.Spec.Addresses ≠ [])
    (hlit : List.Forall₂ (fun tok ip => Contains tok '/' = false ∧ d.ParseIP tok = some ip)
      e.Spec.Addresses ips) :
    Eligible d e ips := by
  refine ⟨hvalid, hres, hne, ?_, ?_⟩
  · have := convertLoop_literals d [] e.Spec.Addresses ips hlit
    simpa [convertToVIPs] using this
  · intro h
    subst h
    generalize e.Spec.Addresses = addrs at hlit hne
    cases hlit
    exact hne rfl

theorem single_entry_table (d : Deps) (e : Config) (h0 : IstioServiceEntries) (vips : List IP)
    (hel : Eligible d e vips)
    (hdots : ∀ x ∈ e.Spec.Hosts, Contains x '*' = true → Contains x '.' = true) :
    ∃ tbl, readServiceEntries d [e] h0 = .ok { h0 with dnsEntries := some tbl } ∧
      (∀ k, (∃ host ∈ e.Spec.Hosts, hostKey host = .ok k) → tbl.get k = some vips) ∧
      (∀ k, (∀ host ∈ e.Spec.Hosts, hostKey host ≠ .ok k) → tbl.get k = none) := by
  obtain ⟨t, ht⟩ := hostLoop_ok vips [] e.Spec.Hosts hdots
  have hb : buildTable d [e] = .ok t := by
    unfold buildTable
    rw [entryLoop_cons_eligible d [] e [] vips hel, ht]
    rfl
  have hn : t.keys.Nodup := buildTable_nodup d [e] t hb
  refine ⟨copyTable t, readServiceEntries_of_build d [e] h0 t hb, ?_, ?_⟩
  · intro k hk
    rw [copyTable_get t k hn]
    exact hostLoop_get_written vips [] t _ k ht hk
  · intro k hk
    rw [copyTable_get t k hn, hostLoop_get_other vips [] t _ k ht hk]
    rfl

/-! ## Lemmas: the query -/

theorem fallbackLoop_cons_short (m : Table) (p : Str) (ps : List Str)
    (h : ¬ (p :: ps).length > 2) : fallbackLoop m (p :: ps) = (none, []) := by
  rw [fallbackLoop, if_neg h]

theorem fallbackLoop_cons_hit (m : Table) (p : Str) (ps : List Str) (vips : List IP)
    (h : (p :: ps).length > 2) (hg : m.get ('.' :: Join (p :: ps) '.') = some vips) :
    fallbackLoop m (p :: ps) = (some vips, ['.' :: Join (p :: ps) '.']) := by
  rw [fallbackLoop, if_pos h]
  simp only [hg]

theorem fallbackLoop_cons_miss (m : Table) (p : Str) (ps : List Str)
    (h : (p :: ps).length > 2) (hg : m.get ('.' :: Join (p :: ps) '.') = none) :
    fallbackLoop m (p :: ps)
      = ((fallbackLoop m ps).1, ('.' :: Join (p :: ps) '.') :: (fallbackLoop m ps).2) := by
  rw [fallbackLoop, if_pos h]
  simp only [hg]

theorem fallbackLoop_some (m : Table) (ps : List Str) (vips : List IP)
    (h : (fallbackLoop m ps).1 = some vips) :
    ∃ key ∈ (fallbackLoop m ps).2, m.get key = some vips := by
  induction ps with
  | nil => simp [fallbackLoop] at h
  | cons p ps ih =>
    by_cases hl : (p :: ps).length > 2
    · cases hg : m.get ('.' :: Join (p :: ps) '.') with
      | some v =>
        rw [fallbackLoop_cons_hit m p ps v hl hg] at h ⊢
        simp only [Option.some.injEq] at h
        subst h
        exact ⟨_, by simp, hg⟩
      | none =>
        rw [fallbackLoop_cons_miss m p ps hl hg] at h ⊢
        obtain ⟨key, hk, hv⟩ := ih h
        exact ⟨key, List.mem_cons_of_mem _ hk, hv⟩
    · rw [fallbackLoop_cons_short m p ps hl] at h
      cases h

theorem fallbackLoop_keys (m : Table) (ps : List Str) (key : Str)
    (h : key ∈ (fallbackLoop m ps).2) :
    ∃ pre suf, ps = pre ++ suf ∧ suf.length > 2 ∧ key = '.' :: Join suf '.' := by
  induction ps with
  | nil => simp [fallbackLoop] at h
  | cons p ps ih =>
    by_cases hl : (p :: ps).length > 2
    · have hcases : key = '.' :: Join (p :: ps) '.' ∨ key ∈ (fallbackLoop m ps).2 := by
        cases hg : m.get ('.' :: Join (p :: ps) '.') with
        | some v =>
          rw [fallbackLoop_cons_hit m p ps v hl hg] at h
          exact Or.inl (by simpa using h)
        | none =>
          rw [fallbackLoop_cons_miss m p ps hl hg] at h
          exact List.mem_cons.mp h
      rcases hcases with h1 | h1
      · exact ⟨[], p :: ps, rfl, hl, h1⟩
      · obtain ⟨pre, suf, h2, h3, h4⟩ := ih h1
        exact ⟨p :: pre, suf, by rw [h2]; rfl, h3, h4⟩
    · rw [fallbackLoop_cons_short m p ps hl] at h
      simp at h

theorem fallbackLoop_uniform (m : Table) (pre suf : List Str) (vips : List IP)
    (hl : suf.length > 2) (hg : m.get ('.' :: Join suf '.') = some vips)
    (hu : ∀ k v, m.get k = some v → v = vips) :
    (fallbackLoop m (pre ++ suf)).1 = some vips := by
  induction pre with
  | nil =>
    cases suf with
    | nil => simp at hl
    | cons p ps => rw [List.nil_append, fallbackLoop_cons_hit m p ps vips hl hg]
  | cons p ps ih =>
    have hlen : (p :: (ps ++ suf)).length > 2 := by simp; omega
    rw [List.cons_append]
    cases hq : m.get ('.' :: Join (p :: (ps ++ suf)) '.') with
    | some v =>
      rw [fallbackLoop_cons_hit m p _ v hlen hq, hu _ v hq]
    | none =>
      rw [fallbackLoop_cons_miss m p _ hlen hq]
      exact ih

theorem respond_single (h : IstioServiceEntries) (id : Nat) (q : Question)
    (hq : q.Qtype = TypeA) :
    respond h (singleQuestion id q) =
      match lookupA h.dnsEntries q.Name with
      | some vips =>
        { Id := id, Response := true, Authoritative := true,
          Rcode := if (a q.Name vips).length = 0 then RcodeNameError else RcodeSuccess,
          Question := [q], Answer := a q.Name vips }
      | none =>
        { Id := id, Response := true, Authoritative := true, Rcode := RcodeNameError,
          Question := [q], Answer := [] } := by
  cases hl : lookupA h.dnsEntries q.Name with
  | none => simp [respond, singleQuestion, questionLoop, hq, hl, SetReply]
  | some vips =>
    by_cases he : (a q.Name vips).length = 0
    · simp [respond, singleQuestion, questionLoop, hq, hl, SetReply, he]
    · simp [respond, singleQuestion, questionLoop, hq, hl, SetReply, he]

theorem respond_found (h : IstioServiceEntries) (id : Nat) (q : Question) (vips : List IP)
    (hq : q.Qtype = TypeA) (hl : lookupA h.dnsEntries q.Name = some vips) :
    (respond h (singleQuestion id q)).Answer = a q.Name vips := by
  rw [respond_single h id q hq, hl]

theorem respond_notfound (h : IstioServiceEntries) (id : Nat) (q : Question)
    (hq : q.Qtype = TypeA) (hl : lookupA h.dnsEntries q.Name = none) :
    (respond h (singleQuestion id q)).Answer = [] ∧
    (respond h (singleQuestion id q)).Rcode = RcodeNameError := by
  rw [respond_single h id q hq, hl]
  exact ⟨rfl, rfl⟩

theorem Join_suffix_length (pre suf : List Str) (sep : Char) :
    (Join suf sep).length ≤ (Join (pre ++ suf) sep).length := by
  induction pre with
  | nil => simp
  | cons p ps ih =>
    rw [List.cons_append]
    exact Nat.le_trans ih (Join_length_cons p (ps ++ suf) sep)

theorem testedKeys_length (m : Table) (name : Str) (key : Str) (h : key ∈ testedKeys m name) :
    key.length ≤ name.length := by
  unfold testedKeys at h
  obtain ⟨pre, suf, h1, h2, h3⟩ := fallbackLoop_keys m _ key h
  obtain ⟨p, ps, hp⟩ := List.exists_cons_of_ne_nil (Split_ne_nil name '.')
  rw [hp, List.tail_cons] at h1
  have hne : ps ≠ [] := by
    rw [h1]
    intro hnil
    have : suf = [] := (List.append_eq_nil.mp hnil).2
    rw [this] at h2
    simp at h2
  have hlt := Join_tail_length_lt p ps '.' hne
  have hname : Join (p :: ps) '.' = name := by rw [← hp]; exact Join_Split name '.'
  rw [hname] at hlt
  have hle := Join_suffix_length pre suf '.'
  rw [← h1] at hle
  rw [h3]
  simp only [List.length_cons]
  omega

theorem lookupA_hit (m : Table) (name : Str) (vips : List IP) (h : m.get name = some vips) :
    lookupA (some m) name = some vips := by
  simp [lookupA, h]

theorem lookupA_miss (m : Table) (name : Str) (h : m.get name = none) :
    lookupA (some m) name = (fallbackLoop m (Split name '.').tail).1 := by
  simp [lookupA, h]

theorem buildTable_remove_excluded (d : Deps) (pre post : List Config) (e : Config)
    (he : Excluded d e) : buildTable d (pre ++ e :: post) = buildTable d (pre ++ post) := by
  unfold buildTable
  rw [entryLoop_append, entryLoop_append]
  cases entryLoop d [] pre with
  | error p => rfl
  | ok t1 => exact entryLoop_cons_excluded d t1 e post he

theorem readServiceEntries_remove_excluded (d : Deps) (pre post : List Config) (e : Config)
    (h : IstioServiceEntries) (he : Excluded d e) :
    readServiceEntries d (pre ++ e :: post) h = readServiceEntries d (pre ++ post) h := by
  unfold readServiceEntries
  rw [buildTable_remove_excluded d pre post e he]

theorem installed_table_inv (Q : Str → Slice → Prop) (d : Deps) (entries : List Config)
    (h0 h1 : IstioServiceEntries) (tbl : Table)
    (hrun : readServiceEntries d entries h0 = .ok h1) (htbl : h1.dnsEntries = some tbl)
    (hstep : ∀ e ∈ entries, ∀ vips, Eligible d e vips →
      ∀ host ∈ e.Spec.Hosts, ∀ key, hostKey host = .ok key → Q key (some vips)) :
    ∀ k ∈ tbl.keys, Q k (tbl.get k) := by
  obtain ⟨t, hb, hd⟩ := readServiceEntries_ok d entries h0 h1 hrun
  rw [hd] at htbl
  cases htbl
  intro k hk
  rw [copyTable_get t k (buildTable_nodup d entries t hb)]
  exact entryLoop_inv Q d [] t entries hb (by simp [Table.keys]) hstep k
    ((copyTable_keys t k).mp hk)

theorem convertLoop_append (d : Deps) (acc : List IP) (l1 l2 : List Str) :
    convertLoop d acc (l1 ++ l2) =
      match convertLoop d acc l1 with
      | .error p => .error p
      | .ok vips => convertLoop d vips l2 := by
  induction l1 generalizing acc with
  | nil => rfl
  | cons tok rest ih =>
    rw [List.cons_append]
    simp only [convertLoop]
    cases convertStep d acc tok with
    | error p => rfl
    | ok vips => exact ih vips

theorem convertToVIPs_remove_parsed (d : Deps) (pre post : List Str) (tok : Str) (ip : IP)
    (network : IPNet) (hs : Contains tok '/' = true) (hp : d.ParseCIDR tok = .parsed ip network) :
    convertToVIPs d (pre ++ tok :: post) = convertToVIPs d (pre ++ post) := by
  unfold convertToVIPs
  rw [convertLoop_append, convertLoop_append]
  cases convertLoop d [] pre with
  | error p => rfl
  | ok vips => simp only [convertLoop, convertStep_parsed d vips tok ip network hs hp]

theorem hostLoop_keys_ok (vips : List IP) (t t' : Table) (hosts : List Str)
    (h : hostLoop vips t hosts = .ok t') : ∀ host ∈ hosts, ∃ key, hostKey host = .ok key := by
  induction hosts generalizing t with
  | nil => simp
  | cons host rest ih =>
    obtain ⟨key, h1, h2⟩ := hostLoop_cons_ok vips t t' host rest h
    intro x hx
    rcases List.mem_cons.mp hx with e | e
    · subst e; exact ⟨key, h1⟩
    · exact ih _ h2 x e

theorem hostLoop_ok_of_keys (vips : List IP) (t : Table) (hosts : List Str)
    (h : ∀ host ∈ hosts, ∃ key, hostKey host = .ok key) :
    ∃ t', hostLoop vips t hosts = .ok t' := by
  induction hosts generalizing t with
  | nil => exact ⟨t, rfl⟩
  | cons host rest ih =>
    obtain ⟨key, hk⟩ := h host (by simp)
    rw [hostLoop_cons vips t host rest key hk]
    exact ih _ (fun x hx => h x (List.mem_cons_of_mem _ hx))

theorem hostLoop_repeat (vips : List IP) (t t1 : Table) (hosts1 hosts2 : List Str) (host : Str)
    (hm : host ∈ hosts1 ++ hosts2) (h : hostLoop vips t (hosts1 ++ hosts2) = .ok t1) :
    ∃ t2, hostLoop vips t (hosts1 ++ host :: hosts2) = .ok t2 ∧ ∀ k, t2.get k = t1.get k := by
  have hkeys := hostLoop_keys_ok vips t t1 _ h
  have hsub : ∀ x, x ∈ hosts1 ++ host :: hosts2 ↔ x ∈ hosts1 ++ hosts2 := by
    intro x
    simp only [List.mem_append, List.mem_cons]
    constructor
    · rintro (h1 | h1 | h1)
      · exact Or.inl h1
      · subst h1; exact List.mem_append.mp hm
      · exact Or.inr h1
    · rintro (h1 | h1)
      · exact Or.inl h1
      · exact Or.inr (Or.inr h1)
  obtain ⟨t2, ht2⟩ := hostLoop_ok_of_keys vips t (hosts1 ++ host :: hosts2)
    (fun x hx => hkeys x ((hsub x).mp hx))
  refine ⟨t2, ht2, ?_⟩
  intro k
  by_cases hw : ∃ x ∈ hosts1 ++ hosts2, hostKey x = .ok k
  · rw [hostLoop_get_written vips t t1 _ k h hw]
    obtain ⟨x, hx, hxk⟩ := hw
    exact hostLoop_get_written vips t t2 _ k ht2 ⟨x, (hsub x).mpr hx, hxk⟩
  · have hw1 : ∀ x ∈ hosts1 ++ hosts2, hostKey x ≠ .ok k := fun x hx hxk => hw ⟨x, hx, hxk⟩
    rw [hostLoop_get_other vips t t1 _ k h hw1]
    exact hostLoop_get_other vips t t2 _ k ht2 (fun x hx => hw1 x ((hsub x).mp hx))

theorem last_writer_get (d : Deps) (pre post : List Config) (e : Config) (vips : List IP)
    (host key : Str) (t : Table)
    (hel : Eligible d e vips) (hhost : host ∈ e.Spec.Hosts) (hkey : hostKey host = .ok key)
    (hlast : ∀ x ∈ post, ∀ v, Eligible d x v → ∀ y ∈ x.Spec.Hosts, hostKey y ≠ .ok key)
    (hb : buildTable d (pre ++ e :: post) = .ok t) : t.get key = some vips := by
  unfold buildTable at hb
  rw [entryLoop_append] at hb
  cases hpre : entryLoop d [] pre with
  | error p => rw [hpre] at hb; cases hb
  | ok t1 =>
    rw [hpre] at hb
    simp only [] at hb
    rw [entryLoop_cons_eligible d t1 e post vips hel] at hb
    cases hh : hostLoop vips t1 e.Spec.Hosts with
    | error p => rw [hh] at hb; cases hb
    | ok t2 =>
      rw [hh] at hb
      simp only [] at hb
      rw [entryLoop_get_other d t2 t post key hb hlast]
      exact hostLoop_get_written vips t1 t2 _ key hh ⟨host, hhost, hkey⟩

theorem labelCount_Join (ps : List Str) (hne : ps ≠ []) (hfree : ∀ p ∈ ps, '.' ∉ p) :
    labelCount (Join ps '.') = ps.length - 1 := by
  simp [labelCount, labels, Split_Join ps '.' hne hfree]

theorem Join_ne_nil (ps : List Str) (sep : Char) (h : 2 ≤ ps.length) : Join ps sep ≠ [] := by
  cases ps with
  | nil => simp at h
  | cons p qs =>
    cases qs with
    | nil => simp at h
    | cons q rs => rw [Join_cons p (q :: rs) sep (by simp)]; simp

theorem respond_question_A (h : IstioServiceEntries) (request : Msg) (q : Question)
    (hq : request.Question = [q]) (hA : q.Qtype = TypeA) :
    respond h request =
      match lookupA h.dnsEntries q.Name with
      | some vips =>
        { Id := request.Id, Response := true, Authoritative := true,
          Rcode := if (a q.Name vips).length = 0 then RcodeNameError else RcodeSuccess,
          Question := [q], Answer := a q.Name vips }
      | none =>
        { Id := request.Id, Response := true, Authoritative := true, Rcode := RcodeNameError,
          Question := [q], Answer := [] } := by
  cases hl : lookupA h.dnsEntries q.Name with
  | none => simp [respond, questionLoop, hq, hA, hl, SetReply]
  | some vips =>
    by_cases he : (a q.Name vips).length = 0
    · simp [respond, questionLoop, hq, hA, hl, SetReply, he]
    · simp [respond, questionLoop, hq, hA, hl, SetReply, he]

theorem respond_question_other (h : IstioServiceEntries) (request : Msg) (q : Question)
    (hq : request.Question = [q]) (hA : q.Qtype ≠ TypeA) :
    respond h request =
      { Id := request.Id, Response := true, Authoritative := true, Rcode := RcodeNameError,
        Question := [q], Answer := [] } := by
  simp [respond, questionLoop, hq, hA, SetReply]

theorem a_length (zone : Str) (ips : List IP) : (a zone ips).length = ips.length := by
  simp [a]

theorem fallbackLoop_none (m : Table) (ps : List Str)
    (h : ∀ key ∈ (fallbackLoop m ps).2, m.get key = none) : (fallbackLoop m ps).1 = none := by
  cases hf : (fallbackLoop m ps).1 with
  | none => rfl
  | some v =>
    obtain ⟨key, hk, hv⟩ := fallbackLoop_some m ps v hf
    rw [h key hk] at hv
    cases hv

theorem lookupA_none (m : Table) (name : Str) (h0 : m.get name = none)
    (h : ∀ key ∈ testedKeys m name, m.get key = none) : lookupA (some m) name = none := by
  rw [lookupA_miss m name h0]
  exact fallbackLoop_none m _ h

theorem installed_keys_derived (d : Deps) (entries : List Config)
    (h0 h1 : IstioServiceEntries) (tbl : Table)
    (hrun : readServiceEntries d entries h0 = .ok h1) (htbl : h1.dnsEntries = some tbl) :
    ∀ k ∈ tbl.keys, Derives d entries k := by
  intro k hk
  exact installed_table_inv (fun k _ => Derives d entries k) d entries h0 h1 tbl hrun htbl
    (fun e he vips hel host hm key hkey => ⟨e, he, vips, hel, host, hm, hkey⟩) k hk

theorem installed_get_underived (d : Deps) (entries : List Config)
    (h0 h1 : IstioServiceEntries) (tbl : Table) (k : Str)
    (hrun : readServiceEntries d entries h0 = .ok h1) (htbl : h1.dnsEntries = some tbl)
    (hk : ¬ Derives d entries k) : k ∉ tbl.keys ∧ tbl.get k = none := by
  have hnot : k ∉ tbl.keys := fun hmem => hk (installed_keys_derived d entries h0 h1 tbl hrun htbl k hmem)
  exact ⟨hnot, Table.get_of_not_mem_keys tbl k hnot⟩

theorem fallbackLoop_congr (m m' : Table) (ps : List Str)
    (h : ∀ pre suf, ps = pre ++ suf → suf.length > 2 →
      m'.get ('.' :: Join suf '.') = m.get ('.' :: Join suf '.')) :
    fallbackLoop m' ps = fallbackLoop m ps := by
  induction ps with
  | nil => rfl
  | cons p ps ih =>
    have ih' := ih (fun pre suf hps hl => h (p :: pre) suf (by rw [hps]; rfl) hl)
    by_cases hl : (p :: ps).length > 2
    · have hkey := h [] (p :: ps) rfl hl
      cases hg : m.get ('.' :: Join (p :: ps) '.') with
      | some v =>
        rw [fallbackLoop_cons_hit m p ps v hl hg,
          fallbackLoop_cons_hit m' p ps v hl (by rw [hkey, hg])]
      | none =>
        rw [fallbackLoop_cons_miss m p ps hl hg,
          fallbackLoop_cons_miss m' p ps hl (by rw [hkey, hg]), ih']
    · rw [fallbackLoop_cons_short m p ps hl, fallbackLoop_cons_short m' p ps hl]

theorem fallbackLoop_first_hit (m : Table) (pre suf : List Str) (vips : List IP)
    (hl : suf.length > 2) (hg : m.get ('.' :: Join suf '.') = some vips)
    (hmiss : ∀ pre1 pre2, pre = pre1 ++ pre2 → pre2 ≠ [] →
      m.get ('.' :: Join (pre2 ++ suf) '.') = none) :
    (fallbackLoop m (pre ++ suf)).1 = some vips := by
  induction pre with
  | nil =>
    cases suf with
    | nil => simp at hl
    | cons p ps => rw [List.nil_append, fallbackLoop_cons_hit m p ps vips hl hg]
  | cons p ps ih =>
    have hlen : (p :: (ps ++ suf)).length > 2 := by simp; omega
    have hq : m.get ('.' :: Join (p :: (ps ++ suf)) '.') = none :=
      hmiss [] (p :: ps) rfl (by simp)
    rw [List.cons_append, fallbackLoop_cons_miss m p _ hlen hq]
    exact ih (fun pre1 pre2 hp hne => hmiss (p :: pre1) pre2 (by rw [hp]; rfl) hne)

theorem cutFirst_append (first rest : Str) (sep : Char) (h : sep ∉ first) :
    cutFirst (first ++ sep :: rest) sep = some (first, rest) := by
  induction first with
  | nil => simp [cutFirst]
  | cons c cs ih =>
    have hc : c ≠ sep := fun e => h (by simp [e])
    have hcs : sep ∉ cs := fun e => h (by simp [e])
    simp [cutFirst, hc, ih hcs]

theorem hostKey_star (first rest : Str) (hfirst : '.' ∉ first)
    (hstar : Contains (first ++ '.' :: rest) '*' = true) :
    hostKey (first ++ '.' :: rest) = .ok ('.' :: (rest ++ ['.'])) := by
  simp [hostKey, hstar, SplitN, cutFirst_append first rest '.' hfirst]

theorem wildcard_key_not_candidate (T : Str) (suf : List Str) (hT : '.' ∉ T)
    (hfree : ∀ p ∈ suf, '.' ∉ p) (hl : suf.length > 2) :
    '.' :: Join suf '.' ≠ '.' :: (T ++ ['.']) := by
  intro h
  have hj : Join suf '.' = T ++ ['.'] := by simpa using h
  have hne : suf ≠ [] := by intro e; rw [e] at hl; simp at hl
  have h1 := Split_Join suf '.' hne hfree
  rw [hj, Split_append_sep T [] '.' hT] at h1
  rw [← h1] at hl
  simp [Split] at hl

theorem mixedTable_inv :
    ∀ k ∈ mixedTable.keys, ∃ ips, mixedTable.get k = some ips ∧ ips ≠ [] := by
  intro k hk
  simp only [mixedTable, Table.keys, List.map_cons, List.map_nil, List.mem_cons,
    List.mem_singleton, List.not_mem_nil, or_false] at hk
  rcases hk with h | h | h
  · subst h; exact ⟨[ip10_0_0_1], by decide, by decide⟩
  · subst h; exact ⟨[ip10_0_0_2], by decide, by decide⟩
  · subst h; exact ⟨[v4InV6 [10, 0, 0, 3]], by decide, by decide⟩

theorem Table.mem_keys_of_get (m : Table) (k : Str) (v : List IP) (h : m.get k = some v) :
    k ∈ m.keys := by
  by_contra hc
  rw [Table.get_of_not_mem_keys m k hc] at h
  cases h

theorem lookupA_some_key (m : Table) (name : Str) (vips : List IP)
    (h : lookupA (some m) name = some vips) : ∃ key ∈ m.keys, m.get key = some vips := by
  cases hg : m.get name with
  | some v =>
    rw [lookupA_hit m name v hg] at h
    have hv : v = vips := Option.some.inj h
    rw [hv] at hg
    exact ⟨name, Table.mem_keys_of_get m name vips hg, hg⟩
  | none =>
    rw [lookupA_miss m name hg] at h
    obtain ⟨key, _, hv⟩ := fallbackLoop_some m _ vips h
    exact ⟨key, Table.mem_keys_of_get m key vips hv, hv⟩

theorem reachable_inv (d : Deps) (h : IstioServiceEntries) (hr : Reachable d h) :
    ∀ m, h.dnsEntries = some m → ∀ k ∈ m.keys, ∃ ips, m.get k = some ips ∧ ips ≠ [] := by
  cases hr with
  | start => intro m hm; cases hm
  | refresh h0 _ entries _ hrun =>
    intro m hm
    exact installed_table_inv (fun _ v => ∃ ips, v = some ips ∧ ips ≠ []) d entries h0 h m
      hrun hm (fun _ _ vips hel _ _ _ _ => ⟨vips, rfl, hel.2.2.2.2⟩)

theorem reachable_lookup_nonempty (d : Deps) (h : IstioServiceEntries) (name : Str)
    (vips : List IP) (hr : Reachable d h) (hl : lookupA h.dnsEntries name = some vips) :
    vips ≠ [] := by
  cases hdn : h.dnsEntries with
  | none =>
    rw [hdn] at hl
    cases hl
  | some m =>
    rw [hdn] at hl
    obtain ⟨key, hk, hv⟩ := lookupA_some_key m name vips hl
    obtain ⟨ips, hips, hne⟩ := reachable_inv d h hr m hdn key hk
    rw [hv] at hips
    cases hips
    exact hne

theorem respond_no_match (h : IstioServiceEntries) (request : Msg) (q : Question)
    (hq : request.Question = [q]) (hA : q.Qtype = TypeA)
    (hl : lookupA h.dnsEntries q.Name = none) :
    (respond h request).Answer = [] ∧
    (respond h request).Authoritative = true ∧
    (respond h request).Rcode = RcodeNameError := by
  rw [respond_question_A h request q hq hA, hl]
  exact ⟨rfl, rfl, rfl⟩

theorem respond_match_nonempty (h : IstioServiceEntries) (request : Msg) (q : Question)
    (vips : List IP) (hq : request.Question = [q]) (hA : q.Qtype = TypeA)
    (hl : lookupA h.dnsEntries q.Name = some vips) (hne : vips ≠ []) :
    (respond h request).Rcode ≠ RcodeNameError ∧
    (respond h request).Rcode = RcodeSuccess ∧
    (respond h request).Answer = a q.Name vips ∧
    (respond h request).Authoritative = true := by
  rw [respond_question_A h request q hq hA, hl]
  have hlen : ¬ (a q.Name vips).length = 0 := by
    rw [a_length]
    intro h0
    exact hne (List.length_eq_zero.mp h0)
  have hr : (if (a q.Name vips).length = 0 then RcodeNameError else RcodeSuccess)
      = RcodeSuccess := if_neg hlen
  refine ⟨?_, hr, rfl, rfl⟩
  show (if (a q.Name vips).length = 0 then RcodeNameError else RcodeSuccess) ≠ RcodeNameError
  rw [hr]
  decide

theorem firstLabel_of_star_dot (rest : Str) : firstLabel ('*' :: '.' :: rest) = ['*'] := by
  have h1 : Split ('*' :: '.' :: rest) '.' = ['*'] :: Split rest '.' :=
    Split_append_sep ['*'] rest '.' (by decide)
  simp [firstLabel, h1]

theorem strictDeps_validates : ValidatesWildcardForm strictDeps := by
  intro name ns entry hv host hm hstar
  have hall : entry.Hosts.all wildcardFormOk = true := by
    by_contra hc
    by_cases hh : entry.Hosts = []
    · simp [strictDeps, hh] at hv
    · simp [strictDeps, hh, hc] at hv
      exact hc (List.all_eq_true.mpr hv)
  have hok : wildcardFormOk host = true := List.all_eq_true.mp hall host hm
  unfold wildcardFormOk at hok
  rw [hstar] at hok
  have htake : host.take 2 = ['*', '.'] := by simpa using hok
  refine ⟨host.drop 2, ?_⟩
  have := List.take_append_drop 2 host
  rw [htake] at this
  exact this.symm

/-! ## The claims -/

/-- C1. End-to-end exact match: when a single entry passes validation, has a
resolution mode other than NONE, lists literal IP tokens (none has a slash and
each parses to the matching element of `ips`), and carries a hostname `host`
without a star, `readServiceEntries` installs a table in which the A query for
`host + "."` finds exactly `ips`, in the order of the tokens, and the response
carries one A record for each of them. -/
theorem exact_match_end_to_end (d : Deps) (e : Config) (h0 : IstioServiceEntries)
    (host : Str) (ips : List IP) (id qclass : Nat)
    (hvalid : d.ValidateServiceEntry e.Name e.Namespace e.Spec = none)
    (hres : e.Spec.Resolution ≠ Resolution.NONE)
    (hhost : host ∈ e.Spec.Hosts)
    (hstar : Contains host '*' = false)
    (hdots : ∀ x ∈ e.Spec.Hosts, Contains x '*' = true → Contains x '.' = true)
    (hne : e.Spec.Addresses ≠ [])
    (hlit : List.Forall₂ (fun tok ip => Contains tok '/' = false ∧ d.ParseIP tok = some ip)
      e.Spec.Addresses ips) :
    ∃ h1, readServiceEntries d [e] h0 = .ok h1 ∧
      lookupA h1.dnsEntries (host ++ ['.']) = some ips ∧
      (respond h1 (singleQuestion id ⟨host ++ ['.'], TypeA, qclass⟩)).Answer
        = a (host ++ ['.']) ips := by
  have hel := eligible_of_literals d e ips hvalid hres hne hlit
  obtain ⟨tbl, hrun, hw, _⟩ := single_entry_table d e h0 ips hel hdots
  have hget : tbl.get (host ++ ['.']) = some ips :=
    hw _ ⟨host, hhost, hostKey_plain host hstar⟩
  have hl : lookupA (some tbl) (host ++ ['.']) = some ips := by
    simp [lookupA, hget]
  exact ⟨_, hrun, hl, respond_found _ id _ ips rfl hl⟩

/-- Witness for C1: host `a.example.com` with address `10.0.0.1`; the query for
`a.example.com.` returns `[10.0.0.1]`. -/
theorem exact_match_end_to_end_witness :
    ∃ h1, readServiceEntries refDeps [exactEntry] initialState = .ok h1 ∧
      lookupA h1.dnsEntries "a.example.com.".toList = some [ip10_0_0_1] ∧
      (respond h1 (singleQuestion 7 ⟨"a.example.com.".toList, TypeA, ClassINET⟩)).Answer
        = a "a.example.com.".toList [ip10_0_0_1] :=
  exact_match_end_to_end refDeps exactEntry initialState "a.example.com".toList [ip10_0_0_1]
    7 ClassINET (by decide) (by decide) (by decide) (by decide) (by decide) (by decide)
    (List.Forall₂.cons ⟨by decide, by decide⟩ List.Forall₂.nil)

/-- C2. End-to-end wildcard match at every depth: when a single eligible entry
with literal IP tokens carries the hostname `"*." + S`, where `S` joins at least
two dot-free labels, then for every non-empty sequence `ls` of dot-free labels
the table `readServiceEntries` installs resolves the A query for
`ls joined by dots + "." + S + "."` to exactly the converted addresses `ips`. -/
theorem wildcard_match_every_depth (d : Deps) (e : Config) (h0 : IstioServiceEntries)
    (labels ls : List Str) (ips : List IP) (id qclass : Nat)
    (hvalid : d.ValidateServiceEntry e.Name e.Namespace e.Spec = none)
    (hres : e.Spec.Resolution ≠ Resolution.NONE)
    (hhost : ('*' :: '.' :: Join labels '.') ∈ e.Spec.Hosts)
    (hdots : ∀ x ∈ e.Spec.Hosts, Contains x '*' = true → Contains x '.' = true)
    (hne : e.Spec.Addresses ≠ [])
    (hlit : List.Forall₂ (fun tok ip => Contains tok '/' = false ∧ d.ParseIP tok = some ip)
      e.Spec.Addresses ips)
    (hlabels : 2 ≤ labels.length) (hfree : ∀ l ∈ labels, '.' ∉ l)
    (hls : 1 ≤ ls.length) (hlsfree : ∀ l ∈ ls, '.' ∉ l) :
    ∃ h1, readServiceEntries d [e] h0 = .ok h1 ∧
      lookupA h1.dnsEntries (Join ls '.' ++ '.' :: (Join labels '.' ++ ['.'])) = some ips ∧
      (respond h1 (singleQuestion id
          ⟨Join ls '.' ++ '.' :: (Join labels '.' ++ ['.']), TypeA, qclass⟩)).Answer
        = a (Join ls '.' ++ '.' :: (Join labels '.' ++ ['.'])) ips := by
  have hel := eligible_of_literals d e ips hvalid hres hne hlit
  obtain ⟨tbl, hrun, hw, ho⟩ := single_entry_table d e h0 ips hel hdots
  have hlne : labels ≠ [] := by intro h; rw [h] at hlabels; simp at hlabels
  have hlsne : ls ≠ [] := by intro h; rw [h] at hls; simp at hls
  -- the table binds the wildcard key, and every value it holds is `ips`
  have hkey : tbl.get ('.' :: (Join labels '.' ++ ['.'])) = some ips :=
    hw _ ⟨_, hhost, hostKey_wildcard (Join labels '.')⟩
  have hu : ∀ k v, tbl.get k = some v → v = ips := by
    intro k v hk
    by_cases hx : ∃ host ∈ e.Spec.Hosts, hostKey host = .ok k
    · rw [hw k hx] at hk; cases hk; rfl
    · rw [ho k (fun host hm hkk => hx ⟨host, hm, hkk⟩)] at hk; cases hk
  -- the query name splits into the labels, and a last empty piece
  have hsuf : Join (labels ++ [[]]) '.' = Join labels '.' ++ ['.'] := by
    rw [Join_append labels [[]] '.' hlne (by simp)]; rfl
  have hname : Join ls '.' ++ '.' :: (Join labels '.' ++ ['.'])
      = Join (ls ++ (labels ++ [[]])) '.' := by
    rw [Join_append ls (labels ++ [[]]) '.' hlsne (by simp), hsuf]
  have hsplit : Split (Join (ls ++ (labels ++ [[]])) '.') '.' = ls ++ (labels ++ [[]]) := by
    apply Split_Join _ _ (by simp [hlsne])
    intro x hx
    rcases List.mem_append.mp hx with h1 | h1
    · exact hlsfree x h1
    · rcases List.mem_append.mp h1 with h2 | h2
      · exact hfree x h2
      · simp at h2; subst h2; simp
  obtain ⟨l0, lrest, hl0⟩ := List.exists_cons_of_ne_nil hlsne
  have htail : (ls ++ (labels ++ [[]])).tail = lrest ++ (labels ++ [[]]) := by
    rw [hl0]; rfl
  have hfall : (fallbackLoop tbl (lrest ++ (labels ++ [[]]))).1 = some ips := by
    apply fallbackLoop_uniform tbl lrest (labels ++ [[]]) ips
    · simp; omega
    · rw [hsuf]; exact hkey
    · exact hu
  have hl : lookupA (some tbl) (Join ls '.' ++ '.' :: (Join labels '.' ++ ['.'])) = some ips := by
    rw [hname]
    cases hx : tbl.get (Join (ls ++ (labels ++ [[]])) '.') with
    | some v => rw [lookupA_hit tbl _ v hx, hu _ v hx]
    | none => rw [lookupA_miss tbl _ hx, hsplit, htail]; exact hfall
  exact ⟨_, hrun, hl, respond_found _ id _ ips rfl hl⟩

/-- Witness for C2: `*.example.com` with address `10.0.0.2` answers
`foo.bar.example.com.` with `[10.0.0.2]`. -/
theorem wildcard_match_every_depth_witness :
    ∃ h1, readServiceEntries refDeps [wildcardEntry] initialState = .ok h1 ∧
      lookupA h1.dnsEntries "foo.bar.example.com.".toList = some [ip10_0_0_2] ∧
      (respond h1 (singleQuestion 7 ⟨"foo.bar.example.com.".toList, TypeA, ClassINET⟩)).Answer
        = a "foo.bar.example.com.".toList [ip10_0_0_2] :=
  wildcard_match_every_depth refDeps wildcardEntry initialState
    ["example".toList, "com".toList] ["foo".toList, "bar".toList] [ip10_0_0_2]
    7 ClassINET (by decide) (by decide) (by decide) (by decide) (by decide)
    (List.Forall₂.cons ⟨by decide, by decide⟩ List.Forall₂.nil)
    (by decide) (by decide) (by decide) (by decide)

/-- C3. Depth floor on the wildcard's own domain: for every suffix `S`, in the
table built from a single eligible entry whose only hostname is `"*." + S`, the
A query for the bare name `S + "."` finds nothing, and the response has no
answer and the code NameError. -/
theorem wildcard_own_domain_not_found (d : Deps) (e : Config) (h0 : IstioServiceEntries)
    (S : Str) (vips : List IP) (id qclass : Nat)
    (hel : Eligible d e vips) (hhosts : e.Spec.Hosts = ['*' :: '.' :: S]) :
    ∃ h1, readServiceEntries d [e] h0 = .ok h1 ∧
      lookupA h1.dnsEntries (S ++ ['.']) = none ∧
      (respond h1 (singleQuestion id ⟨S ++ ['.'], TypeA, qclass⟩)).Answer = [] ∧
      (respond h1 (singleQuestion id ⟨S ++ ['.'], TypeA, qclass⟩)).Rcode = RcodeNameError := by
  have hdots : ∀ x ∈ e.Spec.Hosts, Contains x '*' = true → Contains x '.' = true := by
    intro x hx _
    rw [hhosts] at hx
    simp at hx
    subst hx
    simp [Contains]
  obtain ⟨tbl, hrun, _, ho⟩ := single_entry_table d e h0 vips hel hdots
  -- only the key `"." + S + "."` is bound
  have honly : ∀ k, k ≠ '.' :: (S ++ ['.']) → tbl.get k = none := by
    intro k hk
    apply ho
    intro host hm
    rw [hhosts] at hm
    simp at hm
    subst hm
    rw [hostKey_wildcard]
    intro h
    cases h
    exact hk rfl
  have hshort : ∀ k : Str, k.length ≤ (S ++ ['.']).length → tbl.get k = none := by
    intro k hk
    apply honly
    intro h
    rw [h] at hk
    simp at hk
  have hl : lookupA (some tbl) (S ++ ['.']) = none := by
    rw [lookupA_miss tbl _ (hshort (S ++ ['.']) (Nat.le_refl _))]
    cases hf : (fallbackLoop tbl (Split (S ++ ['.']) '.').tail).1 with
    | none => rfl
    | some v =>
      obtain ⟨key, hk, hv⟩ := fallbackLoop_some tbl _ v hf
      rw [hshort key (testedKeys_length tbl (S ++ ['.']) key hk)] at hv
      cases hv
  obtain ⟨hans, hrc⟩ := respond_notfound { h0 with dnsEntries := some tbl } id
    ⟨S ++ ['.'], TypeA, qclass⟩ rfl hl
  exact ⟨_, hrun, hl, hans, hrc⟩

/-- Witness for C3: `*.example.com` does not answer `example.com.`. -/
theorem wildcard_own_domain_not_found_witness :
    ∃ h1, readServiceEntries refDeps [wildcardEntry] initialState = .ok h1 ∧
      lookupA h1.dnsEntries "example.com.".toList = none ∧
      (respond h1 (singleQuestion 7 ⟨"example.com.".toList, TypeA, ClassINET⟩)).Answer = [] ∧
      (respond h1 (singleQuestion 7 ⟨"example.com.".toList, TypeA, ClassINET⟩)).Rcode
        = RcodeNameError :=
  wildcard_own_domain_not_found refDeps wildcardEntry initialState "example.com".toList
    [ip10_0_0_2] 7 ClassINET
    ⟨by decide, by decide, by decide, by decide, by decide⟩ (by decide)

/-- C4. Single-host prefix: the specification has a token such as `10.0.0.1/32`,
which parses as a CIDR with a full-width mask, converted to its host IP, so
that its entry gets table keys. The code does not do so: `net.ParseCIDR` parses
the token to 10.0.0.1 with a mask of 32 of 32 bits, `convertToVIPs` returns no
address for it, and the entry that carries it leaves the table empty. -/
theorem single_host_prefix_dropped :
    refDeps.ParseCIDR "10.0.0.1/32".toList
      = .parsed ip10_0_0_1 { IP := [10, 0, 0, 1], Mask := { ones := 32, bits := 32 } } ∧
    convertToVIPs refDeps ["10.0.0.1/32".toList] = .ok [] ∧
    buildTable refDeps [prefixEntry] = .ok [] := by
  decide

/-- C5. Exclusion rule: an entry whose resolution mode is NONE, or whose
address list is empty, or for which `convertToVIPs` returns no address, can be
taken out of the list without changing what `readServiceEntries` installs; and
every key of the installed table is the key of a hostname of an entry of the
list that passes validation, has a resolution mode other than NONE and at least
one converted address, and the key is bound to the converted addresses of that
entry. -/
theorem exclusion_rule (d : Deps) (entries : List Config) (h0 h1 : IstioServiceEntries)
    (tbl : Table)
    (hrun : readServiceEntries d entries h0 = .ok h1) (htbl : h1.dnsEntries = some tbl) :
    (∀ pre e post, entries = pre ++ e :: post → Excluded d e →
      readServiceEntries d (pre ++ post) h0 = .ok h1) ∧
    (∀ k ∈ tbl.keys, ∃ e ∈ entries, ∃ host ∈ e.Spec.Hosts, ∃ vips,
      Eligible d e vips ∧ hostKey host = .ok k ∧ tbl.get k = some vips) := by
  constructor
  · intro pre e post hsplit he
    rw [← readServiceEntries_remove_excluded d pre post e h0 he, ← hsplit]
    exact hrun
  · exact installed_table_inv
      (fun k v => ∃ e ∈ entries, ∃ host ∈ e.Spec.Hosts, ∃ vips,
        Eligible d e vips ∧ hostKey host = .ok k ∧ v = some vips)
      d entries h0 h1 tbl hrun htbl
      (fun e he vips hel host hm key hkey => ⟨e, he, host, hm, vips, hel, hkey, rfl⟩)

/-- Witness for C5: a list with an entry of resolution mode NONE and the entry
for `a.example.com`; the installed table has the single key `a.example.com.`. -/
theorem exclusion_rule_witness :
    (∀ pre e post, [noneEntry, exactEntry] = pre ++ e :: post → Excluded refDeps e →
      readServiceEntries refDeps (pre ++ post) initialState
        = .ok { dnsEntries := some [("a.example.com.".toList, some [ip10_0_0_1])] }) ∧
    (∀ k ∈ Table.keys [("a.example.com.".toList, some [ip10_0_0_1])],
      ∃ e ∈ [noneEntry, exactEntry], ∃ host ∈ e.Spec.Hosts, ∃ vips,
        Eligible refDeps e vips ∧ hostKey host = .ok k ∧
        Table.get [("a.example.com.".toList, some [ip10_0_0_1])] k = some vips) :=
  exclusion_rule refDeps [noneEntry, exactEntry] initialState
    { dnsEntries := some [("a.example.com.".toList, some [ip10_0_0_1])] }
    [("a.example.com.".toList, some [ip10_0_0_1])] (by decide) rfl

/-- C6. Unparsable tokens: the specification has `convertToVIPs` never fail and
drop each unparsable token. The code faults on a token that has a slash and is
no CIDR: on `["10.0.0.1", "10.0.0.1/33"]`, `net.ParseCIDR` fails on the second
token, `convertToVIPs` ends in a nil pointer dereference instead of returning
`[10.0.0.1]`, and `readServiceEntries` ends the same way on an entry with these
addresses. -/
theorem unparsable_prefix_faults :
    refDeps.ParseCIDR "10.0.0.1/33".toList = .failed "10.0.0.1/33".toList ∧
    convertToVIPs refDeps ["10.0.0.1".toList, "10.0.0.1/33".toList]
      = .error GoPanic.nilPointerDereference ∧
    readServiceEntries refDeps [badPrefixEntry] initialState
      = .error GoPanic.nilPointerDereference := by
  decide

/-- C7, as stated, fails: for the query name `foo.example.com.` the wildcard
loop reads the key `.example.com.`, whose candidate suffix `example.com.` has
two labels, and a table that binds this key answers the query from it. -/
theorem depth_floor_three_labels_counterexample :
    testedKeys [] "foo.example.com.".toList = [".example.com.".toList] ∧
    labelCount "example.com.".toList = 2 ∧
    lookupA (some [(".example.com.".toList, some [ip10_0_0_2])]) "foo.example.com.".toList
      = some [ip10_0_0_2] := by
  decide

/-- C7, amended. For every table and every dot-terminated query name, every key
the wildcard loop reads is a dot followed by a dot-terminated suffix of the
name that starts after one of its dots and has at least two labels (three
pieces between dots, when the empty piece after the final dot is counted). -/
theorem depth_floor_two_labels (m : Table) (name key : Str)
    (hdot : name.getLast? = some '.') (hkey : key ∈ testedKeys m name) :
    ∃ front suffix, name = front ++ key ∧ key = '.' :: suffix ∧
      suffix.getLast? = some '.' ∧ 2 ≤ labelCount suffix ∧
      3 ≤ (Split suffix '.').length := by
  unfold testedKeys at hkey
  obtain ⟨pre, suf, h1, h2, h3⟩ := fallbackLoop_keys m _ key hkey
  obtain ⟨p, ps, hp⟩ := List.exists_cons_of_ne_nil (Split_ne_nil name '.')
  rw [hp, List.tail_cons] at h1
  have hsufne : suf ≠ [] := by intro h; rw [h] at h2; simp at h2
  have hfree : ∀ x ∈ suf, '.' ∉ x := by
    intro x hx
    apply Split_pieces_free name '.' x
    rw [hp, h1]
    exact List.mem_cons_of_mem _ (List.mem_append_right _ hx)
  have hname : name = Join (p :: pre) '.' ++ '.' :: Join suf '.' := by
    have := Join_Split name '.'
    rw [hp, h1] at this
    rw [← this]
    exact Join_append (p :: pre) suf '.' (by simp) hsufne
  have hjne : Join suf '.' ≠ [] := Join_ne_nil suf '.' (by omega)
  refine ⟨Join (p :: pre) '.', Join suf '.', ?_, h3, ?_, ?_, ?_⟩
  · rw [h3]; exact hname
  · rw [hname] at hdot
    rw [List.getLast?_append_of_ne_nil _ (by simp)] at hdot
    obtain ⟨c, cs, hc⟩ := List.exists_cons_of_ne_nil hjne
    rw [hc] at hdot ⊢
    rw [List.getLast?_cons_cons] at hdot
    exact hdot
  · rw [labelCount_Join suf hsufne hfree]; omega
  · rw [Split_Join suf '.' hsufne hfree]; omega

/-- Witness for C7, amended: the key `.example.com.` read for `foo.example.com.`. -/
theorem depth_floor_two_labels_witness :
    ∃ front suffix, "foo.example.com.".toList = front ++ ".example.com.".toList ∧
      ".example.com.".toList = '.' :: suffix ∧
      suffix.getLast? = some '.' ∧ 2 ≤ labelCount suffix ∧
      3 ≤ (Split suffix '.').length :=
  depth_floor_two_labels [] "foo.example.com.".toList ".example.com.".toList
    (by decide) (by decide)

/-- C8. Multi-host prefix rejected: a token in CIDR form that parses to a mask
narrower than full width adds nothing to what `convertToVIPs` returns, and an
entry whose addresses are all such tokens can be taken out of the list without
changing what `readServiceEntries` does: it adds no key. -/
theorem multi_host_prefix_rejected (d : Deps) (tok : Str) (before after : List Str)
    (e : Config) (pre post : List Config) (h : IstioServiceEntries)
    (htok : NarrowCIDR d tok)
    (hall : ∀ t ∈ e.Spec.Addresses, NarrowCIDR d t) :
    convertToVIPs d (before ++ tok :: after) = convertToVIPs d (before ++ after) ∧
    convertToVIPs d e.Spec.Addresses = .ok [] ∧
    readServiceEntries d (pre ++ e :: post) h = readServiceEntries d (pre ++ post) h := by
  obtain ⟨hs, ip, network, hp, _⟩ := htok
  have hconv : convertToVIPs d e.Spec.Addresses = .ok [] := by
    apply convertLoop_parsed d [] e.Spec.Addresses
    intro t ht
    obtain ⟨hs', ip', network', hp', _⟩ := hall t ht
    exact ⟨hs', ip', network', hp'⟩
  exact ⟨convertToVIPs_remove_parsed d before after tok ip network hs hp, hconv,
    readServiceEntries_remove_excluded d pre post e h (Or.inr (Or.inr hconv))⟩

/-- Witness for C8: the token `10.0.0.0/24` next to `10.0.0.1`, and the entry
whose only address is `10.0.0.0/24` next to the entry for `a.example.com`. -/
theorem multi_host_prefix_rejected_witness :
    convertToVIPs refDeps (["10.0.0.1".toList] ++ "10.0.0.0/24".toList :: [])
      = convertToVIPs refDeps (["10.0.0.1".toList] ++ []) ∧
    convertToVIPs refDeps rangeEntry.Spec.Addresses = .ok [] ∧
    readServiceEntries refDeps ([exactEntry] ++ rangeEntry :: []) initialState
      = readServiceEntries refDeps ([exactEntry] ++ []) initialState :=
  multi_host_prefix_rejected refDeps "10.0.0.0/24".toList ["10.0.0.1".toList] []
    rangeEntry [exactEntry] [] initialState
    ⟨by decide, v4InV6 [10, 0, 0, 0],
      { IP := [10, 0, 0, 0], Mask := { ones := 24, bits := 32 } }, by decide, by decide⟩
    (fun t ht => by
      have : t = "10.0.0.0/24".toList := by simpa [rangeEntry] using ht
      subst this
      exact ⟨by decide, v4InV6 [10, 0, 0, 0],
        { IP := [10, 0, 0, 0], Mask := { ones := 24, bits := 32 } }, by decide, by decide⟩)

/-- C9. Table invariant: every key of the table that `readServiceEntries`
installs is bound to a list of addresses that is neither nil nor empty. -/
theorem installed_table_values_nonempty (d : Deps) (entries : List Config)
    (h0 h1 : IstioServiceEntries) (tbl : Table)
    (hrun : readServiceEntries d entries h0 = .ok h1) (htbl : h1.dnsEntries = some tbl) :
    ∀ k ∈ tbl.keys, ∃ ips, tbl.get k = some ips ∧ ips ≠ [] :=
  installed_table_inv (fun _ v => ∃ ips, v = some ips ∧ ips ≠ []) d entries h0 h1 tbl hrun htbl
    (fun _ _ vips hel _ _ _ _ => ⟨vips, rfl, hel.2.2.2.2⟩)

/-- Witness for C9: in the table installed for the entries of `a.example.com`,
of the prefix range and of `*.example.com`, the key `.example.com.` is bound
to a non-empty list. -/
theorem installed_table_values_nonempty_witness :
    ∃ ips, Table.get [("a.example.com.".toList, some [ip10_0_0_1]),
        (".example.com.".toList, some [ip10_0_0_2])] ".example.com.".toList = some ips ∧
      ips ≠ [] :=
  installed_table_values_nonempty refDeps [exactEntry, rangeEntry, wildcardEntry] initialState
    { dnsEntries := some [("a.example.com.".toList, some [ip10_0_0_1]),
        (".example.com.".toList, some [ip10_0_0_2])] }
    [("a.example.com.".toList, some [ip10_0_0_1]), (".example.com.".toList, some [ip10_0_0_2])]
    (by decide) rfl ".example.com.".toList (by decide)

/-- C10. Last write wins within one build: when two eligible entries of the
list have hostnames with the same key, and no eligible entry after the later
one has a hostname with that key, the installed table binds the key to the
converted addresses of the later entry; and within one entry, a hostname that
is repeated in the host list changes no binding of the table. -/
theorem last_write_wins (d : Deps) (pre mid post : List Config) (e1 e2 : Config)
    (vips1 vips2 : List IP) (host1 host2 key : Str) (h0 h1 : IstioServiceEntries) (tbl : Table)
    (_hel1 : Eligible d e1 vips1) (_hhost1 : host1 ∈ e1.Spec.Hosts)
    (_hkey1 : hostKey host1 = .ok key)
    (hel2 : Eligible d e2 vips2) (hhost2 : host2 ∈ e2.Spec.Hosts)
    (hkey2 : hostKey host2 = .ok key)
    (hlast : ∀ x ∈ post, ∀ v, Eligible d x v → ∀ y ∈ x.Spec.Hosts, hostKey y ≠ .ok key)
    (hrun : readServiceEntries d (pre ++ e1 :: (mid ++ e2 :: post)) h0 = .ok h1)
    (htbl : h1.dnsEntries = some tbl) :
    tbl.get key = some vips2 ∧
    (∀ t t1 hosts1 hosts2 host, host ∈ hosts1 ++ hosts2 →
      hostLoop vips2 t (hosts1 ++ hosts2) = .ok t1 →
      ∃ t2, hostLoop vips2 t (hosts1 ++ host :: hosts2) = .ok t2 ∧
        ∀ k, t2.get k = t1.get k) := by
  constructor
  · obtain ⟨t, hb, hd⟩ := readServiceEntries_ok d _ h0 h1 hrun
    rw [hd] at htbl
    cases htbl
    rw [copyTable_get t key (buildTable_nodup d _ t hb)]
    have hlist : pre ++ e1 :: (mid ++ e2 :: post) = (pre ++ e1 :: mid) ++ e2 :: post := by
      simp
    rw [hlist] at hb
    exact last_writer_get d (pre ++ e1 :: mid) post e2 vips2 host2 key t hel2 hhost2 hkey2
      hlast hb
  · intro t t1 hosts1 hosts2 host hm hloop
    exact hostLoop_repeat vips2 t t1 hosts1 hosts2 host hm hloop

/-- Witness for C10: the entry for `a.example.com` at 10.0.0.1 followed by the
entry for the same host at 10.0.0.2; the table binds `a.example.com.` to
`[10.0.0.2]`. -/
theorem last_write_wins_witness :
    Table.get [("a.example.com.".toList, some [ip10_0_0_2])] "a.example.com.".toList
      = some [ip10_0_0_2] ∧
    (∀ t t1 hosts1 hosts2 host, host ∈ hosts1 ++ hosts2 →
      hostLoop [ip10_0_0_2] t (hosts1 ++ hosts2) = .ok t1 →
      ∃ t2, hostLoop [ip10_0_0_2] t (hosts1 ++ host :: hosts2) = .ok t2 ∧
        ∀ k, t2.get k = t1.get k) :=
  last_write_wins refDeps [] [] [] exactEntry laterEntry [ip10_0_0_1] [ip10_0_0_2]
    "a.example.com".toList "a.example.com".toList "a.example.com.".toList initialState
    { dnsEntries := some [("a.example.com.".toList, some [ip10_0_0_2])] }
    [("a.example.com.".toList, some [ip10_0_0_2])]
    ⟨by decide, by decide, by decide, by decide, by decide⟩ (by decide) (by decide)
    ⟨by decide, by decide, by decide, by decide, by decide⟩ (by decide) (by decide)
    (fun x hx => absurd hx (List.not_mem_nil x)) (by decide) rfl

/-- C11. Refresh fully supersedes the previous table: what `readServiceEntries`
installs does not depend on the prior state; the installed table is the copy
of the table built from the entries and has exactly its bindings; a key that
no eligible entry of the list derives is absent from it, whatever the prior
table held; and a name for which neither the exact key nor any key the
wildcard loop reads is derived from the list finds nothing, so that the
response has no answer and the code NameError. -/
theorem refresh_supersedes (d : Deps) (entries : List Config)
    (h0 h0' h1 : IstioServiceEntries) (tbl : Table)
    (hrun : readServiceEntries d entries h0 = .ok h1) (htbl : h1.dnsEntries = some tbl) :
    readServiceEntries d entries h0' = .ok h1 ∧
    (∃ t, buildTable d entries = .ok t ∧ tbl = copyTable t ∧
      ∀ k, tbl.get k = t.get k ∧ (k ∈ tbl.keys ↔ k ∈ t.keys)) ∧
    (∀ k, ¬ Derives d entries k → k ∉ tbl.keys ∧ tbl.get k = none) ∧
    (∀ name id qclass, ¬ Derives d entries name →
      (∀ key ∈ testedKeys tbl name, ¬ Derives d entries key) →
      lookupA h1.dnsEntries name = none ∧
      (respond h1 (singleQuestion id ⟨name, TypeA, qclass⟩)).Answer = [] ∧
      (respond h1 (singleQuestion id ⟨name, TypeA, qclass⟩)).Rcode = RcodeNameError) := by
  obtain ⟨t, hb, hd⟩ := readServiceEntries_ok d entries h0 h1 hrun
  have hunder := fun k hk => installed_get_underived d entries h0 h1 tbl k hrun htbl hk
  have htc : tbl = copyTable t := by
    rw [hd] at htbl
    cases htbl
    rfl
  refine ⟨?_, ⟨t, hb, htc, ?_⟩, hunder, ?_⟩
  · rw [readServiceEntries_of_build d entries h0' t hb]
    cases h1 with
    | mk dn =>
      simp only at hd
      rw [hd]
  · intro k
    rw [htc]
    exact ⟨copyTable_get t k (buildTable_nodup d entries t hb), copyTable_keys t k⟩
  · intro name id qclass hname htested
    have hl : lookupA h1.dnsEntries name = none := by
      rw [htbl]
      exact lookupA_none tbl name (hunder name hname).2
        (fun key hkey => (hunder key (htested key hkey)).2)
    obtain ⟨h3, h4⟩ := respond_notfound h1 id ⟨name, TypeA, qclass⟩ rfl hl
    exact ⟨hl, h3, h4⟩

/-- Witness for C11: the prior table binds `a.example.com.`, the registry then
lists only an entry of mode NONE; the installed table is empty. -/
theorem refresh_supersedes_witness :
    readServiceEntries refDeps [noneEntry] initialState = .ok { dnsEntries := some [] } ∧
    (∃ t, buildTable refDeps [noneEntry] = .ok t ∧ [] = copyTable t ∧
      ∀ k, Table.get [] k = t.get k ∧ (k ∈ Table.keys [] ↔ k ∈ t.keys)) ∧
    (∀ k, ¬ Derives refDeps [noneEntry] k → k ∉ Table.keys [] ∧ Table.get [] k = none) ∧
    (∀ name id qclass, ¬ Derives refDeps [noneEntry] name →
      (∀ key ∈ testedKeys [] name, ¬ Derives refDeps [noneEntry] key) →
      lookupA (some []) name = none ∧
      (respond { dnsEntries := some [] } (singleQuestion id ⟨name, TypeA, qclass⟩)).Answer = [] ∧
      (respond { dnsEntries := some [] } (singleQuestion id ⟨name, TypeA, qclass⟩)).Rcode
        = RcodeNameError) :=
  refresh_supersedes refDeps [noneEntry] exactState initialState { dnsEntries := some [] } []
    (by decide) rfl

/-- C12. NotFound shaping: for every request whose single question is an A
question, and every table, the nil table included: when the name is no key of
the table and no key the wildcard loop reads is a key of the table, the
response has no answer record, is authoritative and carries the code
NameError; and in every state the program can be in, when a match is found the
response carries the records of the matched list and its code is the success
code, not NameError. -/
theorem notfound_shaping (d : Deps) (h : IstioServiceEntries) (request : Msg) (q : Question)
    (hq : request.Question = [q]) (hA : q.Qtype = TypeA) :
    ((∀ m, h.dnsEntries = some m →
        q.Name ∉ m.keys ∧ ∀ key ∈ testedKeys m q.Name, key ∉ m.keys) →
      (respond h request).Answer = [] ∧
      (respond h request).Authoritative = true ∧
      (respond h request).Rcode = RcodeNameError) ∧
    (Reachable d h → ∀ vips, lookupA h.dnsEntries q.Name = some vips →
      (respond h request).Rcode ≠ RcodeNameError ∧
      (respond h request).Rcode = RcodeSuccess ∧
      (respond h request).Answer = a q.Name vips ∧
      (respond h request).Authoritative = true) := by
  constructor
  · intro hno
    have hl : lookupA h.dnsEntries q.Name = none := by
      cases hdn : h.dnsEntries with
      | none => rfl
      | some m =>
        obtain ⟨h1, h2⟩ := hno m hdn
        exact lookupA_none m q.Name (Table.get_of_not_mem_keys m _ h1)
          (fun key hkey => Table.get_of_not_mem_keys m key (h2 key hkey))
    exact respond_no_match h request q hq hA hl
  · intro hr vips hl
    exact respond_match_nonempty h request q vips hq hA hl
      (reachable_lookup_nonempty d h q.Name vips hr hl)

/-- Witness for C12: before the first refresh the query for `a.example.com.`
gets NameError; after the refresh that installs the entry for that host, it
gets the record of 10.0.0.1 and the success code. -/
theorem notfound_shaping_witness :
    ((respond initialState
        (singleQuestion 7 ⟨"a.example.com.".toList, TypeA, ClassINET⟩)).Answer = [] ∧
      (respond initialState
        (singleQuestion 7 ⟨"a.example.com.".toList, TypeA, ClassINET⟩)).Authoritative = true ∧
      (respond initialState
        (singleQuestion 7 ⟨"a.example.com.".toList, TypeA, ClassINET⟩)).Rcode = RcodeNameError) ∧
    ((respond exactState
        (singleQuestion 7 ⟨"a.example.com.".toList, TypeA, ClassINET⟩)).Rcode ≠ RcodeNameError ∧
      (respond exactState
        (singleQuestion 7 ⟨"a.example.com.".toList, TypeA, ClassINET⟩)).Rcode = RcodeSuccess ∧
      (respond exactState
        (singleQuestion 7 ⟨"a.example.com.".toList, TypeA, ClassINET⟩)).Answer
        = a "a.example.com.".toList [ip10_0_0_1] ∧
      (respond exactState
        (singleQuestion 7 ⟨"a.example.com.".toList, TypeA, ClassINET⟩)).Authoritative = true) :=
  ⟨(notfound_shaping refDeps initialState
      (singleQuestion 7 ⟨"a.example.com.".toList, TypeA, ClassINET⟩)
      ⟨"a.example.com.".toList, TypeA, ClassINET⟩ rfl rfl).1
      (fun m hm => by cases hm),
    (notfound_shaping refDeps exactState
      (singleQuestion 7 ⟨"a.example.com.".toList, TypeA, ClassINET⟩)
      ⟨"a.example.com.".toList, TypeA, ClassINET⟩ rfl rfl).2
      (Reachable.refresh initialState exactState [exactEntry] Reachable.start (by decide))
      [ip10_0_0_1] (by decide)⟩

/-- C13. Answer shaping: when the lookup for the single A question of a request
finds the list `vips`, the answer section of the response is `a` of the query
name and `vips`; it has one record for each address, in the order of the list,
and each record carries the query name, type A, class INET and the
time-to-live 3600. -/
theorem answer_shaping (h : IstioServiceEntries) (request : Msg) (q : Question)
    (vips : List IP)
    (hq : request.Question = [q]) (hA : q.Qtype = TypeA)
    (hl : lookupA h.dnsEntries q.Name = some vips) :
    (respond h request).Answer = a q.Name vips ∧
    (a q.Name vips).length = vips.length ∧
    (a q.Name vips).map (fun r => r.A) = vips ∧
    (∀ r ∈ a q.Name vips,
      r.Hdr = { Name := q.Name, Rrtype := TypeA, Class := ClassINET, Ttl := 3600 }) ∧
    (∀ i : Nat, (a q.Name vips)[i]? = vips[i]?.map (fun ip =>
      ({ Hdr := { Name := q.Name, Rrtype := TypeA, Class := ClassINET, Ttl := 3600 },
         A := ip } : RR))) := by
  refine ⟨?_, a_length q.Name vips, ?_, ?_, ?_⟩
  · rw [respond_question_A h request q hq hA, hl]
  · simp [a, Function.comp_def]
  · intro r hr
    simp only [a, List.mem_map] at hr
    obtain ⟨ip, _, rfl⟩ := hr
    rfl
  · intro i
    simp [a]

/-- Witness for C13: the table maps `a.example.com.` to 10.0.0.1 and the
response has the one record for that address. -/
theorem answer_shaping_witness :
    (respond exactState (singleQuestion 7 ⟨"a.example.com.".toList, TypeA, ClassINET⟩)).Answer
      = a "a.example.com.".toList [ip10_0_0_1] ∧
    (a "a.example.com.".toList [ip10_0_0_1]).length = [ip10_0_0_1].length ∧
    (a "a.example.com.".toList [ip10_0_0_1]).map (fun r => r.A) = [ip10_0_0_1] ∧
    (∀ r ∈ a "a.example.com.".toList [ip10_0_0_1],
      r.Hdr = { Name := "a.example.com.".toList, Rrtype := TypeA, Class := ClassINET,
                Ttl := 3600 }) ∧
    (∀ i : Nat, (a "a.example.com.".toList [ip10_0_0_1])[i]? = [ip10_0_0_1][i]?.map (fun ip =>
      ({ Hdr := { Name := "a.example.com.".toList, Rrtype := TypeA, Class := ClassINET,
                  Ttl := 3600 },
         A := ip } : RR))) :=
  answer_shaping exactState (singleQuestion 7 ⟨"a.example.com.".toList, TypeA, ClassINET⟩)
    ⟨"a.example.com.".toList, TypeA, ClassINET⟩ [ip10_0_0_1] rfl rfl (by decide)

/-- C14, as stated, fails: for a question of type AAAA on `a.example.com.`, a
name the table binds, the response carries the code NameError, and the packet
`Query` returns is the one it returns for an A question on a name that is not
in the table. -/
theorem unsupported_kind_counterexample :
    (respond exactState
      (singleQuestion 7 ⟨"a.example.com.".toList, TypeAAAA, ClassINET⟩)).Rcode
        = RcodeNameError ∧
    Query wireDeps exactState (7 :: TypeAAAA :: "a.example.com.".toList.map Char.toNat)
      = .ok [7, RcodeNameError, 0] ∧
    Query wireDeps exactState (7 :: TypeA :: "b.example.com.".toList.map Char.toNat)
      = .ok [7, RcodeNameError, 0] := by
  decide

/-- C14, amended. For every two tables and every payload that unpacks to a
request whose only question has a record kind other than A, the response has
no answer record and is the same for both tables, `Query` returns the same
result for both, it returns the packed response whenever the response packs,
and the response carries the code NameError, as it does for a name that is
not found. -/
theorem unsupported_kind_is_name_error (d : Deps) (h h' : IstioServiceEntries)
    (msg : List Nat) (request : Msg) (q : Question)
    (hu : d.Unpack msg = .ok request) (hq : request.Question = [q])
    (hA : q.Qtype ≠ TypeA) :
    (respond h request).Answer = [] ∧
    respond h' request = respond h request ∧
    Query d h' msg = Query d h msg ∧
    (∀ out, d.Pack (respond h request) = .ok out → Query d h msg = .ok out) ∧
    (respond h request).Rcode = RcodeNameError := by
  have h1 := respond_question_other h request q hq hA
  have h2 := respond_question_other h' request q hq hA
  refine ⟨by rw [h1], by rw [h1, h2], ?_, ?_, by rw [h1]⟩
  · simp only [Query, hu, h1, h2]
  · intro out hp
    simp only [Query, hu, hp]

/-- Witness for C14, amended: the AAAA question on `a.example.com.`, with the
table that binds this name and with no table. -/
theorem unsupported_kind_is_name_error_witness :
    (respond exactState
      (singleQuestion 7 ⟨"a.example.com.".toList, TypeAAAA, ClassINET⟩)).Answer = [] ∧
    respond initialState (singleQuestion 7 ⟨"a.example.com.".toList, TypeAAAA, ClassINET⟩)
      = respond exactState (singleQuestion 7 ⟨"a.example.com.".toList, TypeAAAA, ClassINET⟩) ∧
    Query wireDeps initialState (7 :: TypeAAAA :: "a.example.com.".toList.map Char.toNat)
      = Query wireDeps exactState (7 :: TypeAAAA :: "a.example.com.".toList.map Char.toNat) ∧
    (∀ out, wireDeps.Pack (respond exactState
        (singleQuestion 7 ⟨"a.example.com.".toList, TypeAAAA, ClassINET⟩)) = .ok out →
      Query wireDeps exactState (7 :: TypeAAAA :: "a.example.com.".toList.map Char.toNat)
        = .ok out) ∧
    (respond exactState
      (singleQuestion 7 ⟨"a.example.com.".toList, TypeAAAA, ClassINET⟩)).Rcode
        = RcodeNameError :=
  unsupported_kind_is_name_error wireDeps exactState initialState
    (7 :: TypeAAAA :: "a.example.com.".toList.map Char.toNat)
    (singleQuestion 7 ⟨"a.example.com.".toList, TypeAAAA, ClassINET⟩)
    ⟨"a.example.com.".toList, TypeAAAA, ClassINET⟩ (by decide) rfl (by decide)

/-- C15. Malformed input: when the decoder fails on the payload, `Query`
returns an error that carries the decoder's error and returns no packet, and
the result is the same whatever the table is; when the payload unpacks, the
result of `Query` is the packed response, or the error of the packing step. -/
theorem malformed_input (d : Deps) (h h' : IstioServiceEntries) (msg : List Nat) :
    (∀ err, d.Unpack msg = .error err →
      Query d h msg = .error ("failed to unmarshall dns query: ".toList ++ err) ∧
      (∀ out, Query d h msg ≠ .ok out) ∧
      Query d h' msg = Query d h msg) ∧
    (∀ request, d.Unpack msg = .ok request →
      (∀ out, d.Pack (respond h request) = .ok out → Query d h msg = .ok out) ∧
      (∀ err, d.Pack (respond h request) = .error err →
        Query d h msg = .error ("failed to mashall dns response: ".toList ++ err))) := by
  constructor
  · intro err hu
    have hq : Query d h msg = .error ("failed to unmarshall dns query: ".toList ++ err) := by
      simp only [Query, hu]
    refine ⟨hq, ?_, ?_⟩
    · intro out ho
      rw [hq] at ho
      cases ho
    · simp only [Query, hu]
  · intro request hu
    constructor
    · intro out hp
      simp only [Query, hu, hp]
    · intro err hp
      simp only [Query, hu, hp]

/-- Witness for C15: a payload of one number does not unpack, with or without a
table; the payload of the A question on `a.example.com.` unpacks and `Query`
returns the packed response. -/
theorem malformed_input_witness :
    (Query wireDeps exactState [7]
        = .error ("failed to unmarshall dns query: ".toList ++ "short buffer".toList) ∧
      (∀ out, Query wireDeps exactState [7] ≠ .ok out) ∧
      Query wireDeps initialState [7] = Query wireDeps exactState [7]) ∧
    Query wireDeps exactState examplePayload
      = .ok [7, RcodeSuccess, 1, 0, 0, 0, 0, 0, 0, 0, 0, 0, 0, 255, 255, 10, 0, 0, 1] :=
  ⟨(malformed_input wireDeps exactState initialState [7]).1 "short buffer".toList (by decide),
    ((malformed_input wireDeps exactState initialState examplePayload).2
      (singleQuestion 7 ⟨"a.example.com.".toList, TypeA, ClassINET⟩) (by decide)).1
      [7, RcodeSuccess, 1, 0, 0, 0, 0, 0, 0, 0, 0, 0, 0, 255, 255, 10, 0, 0, 1] (by decide)⟩

/-- C17. Exact match takes precedence: in a table whose keys are all bound to
non-empty lists, a query name that is a key resolves to the list stored under
that key, whatever wildcard keys the table has, and the response carries the
records of that list. -/
theorem exact_match_precedence (m : Table) (name : Str) (id qclass : Nat)
    (hinv : ∀ k ∈ m.keys, ∃ ips, m.get k = some ips ∧ ips ≠ [])
    (hkey : name ∈ m.keys) :
    ∃ ips, m.get name = some ips ∧ ips ≠ [] ∧
      lookupA (some m) name = some ips ∧
      (respond { dnsEntries := some m } (singleQuestion id ⟨name, TypeA, qclass⟩)).Answer
        = a name ips := by
  obtain ⟨ips, hget, hne⟩ := hinv name hkey
  have hl : lookupA (some m) name = some ips := lookupA_hit m name ips hget
  exact ⟨ips, hget, hne, hl,
    respond_found { dnsEntries := some m } id ⟨name, TypeA, qclass⟩ ips rfl hl⟩

/-- Witness for C17: `foo.example.com.` is a key at 10.0.0.1 and the wildcard
key `.example.com.` at 10.0.0.2 covers it too; the lookup returns 10.0.0.1. -/
theorem exact_match_precedence_witness :
    ∃ ips, mixedTable.get "foo.example.com.".toList = some ips ∧ ips ≠ [] ∧
      lookupA (some mixedTable) "foo.example.com.".toList = some ips ∧
      (respond { dnsEntries := some mixedTable }
        (singleQuestion 7 ⟨"foo.example.com.".toList, TypeA, ClassINET⟩)).Answer
        = a "foo.example.com.".toList ips :=
  exact_match_precedence mixedTable "foo.example.com.".toList 7 ClassINET mixedTable_inv
    (by decide)

/-- C18. A wildcard for a single-label suffix never matches: for a dot-free
label `T`, a table `m` that holds the key `"." + T + "."`, and a query name
that does not begin with a dot, the lookup reads neither that key as the exact
key nor as a wildcard key, and its result is the same in every table that
agrees with `m` on all other keys. -/
theorem single_label_wildcard_never_matches (m m' : Table) (T name : Str)
    (hT : '.' ∉ T) (hname : name.head? ≠ some '.')
    (_hkey : ('.' :: (T ++ ['.'])) ∈ m.keys)
    (hagree : ∀ k, k ≠ '.' :: (T ++ ['.']) → m'.get k = m.get k) :
    name ≠ '.' :: (T ++ ['.']) ∧
    ('.' :: (T ++ ['.'])) ∉ testedKeys m name ∧
    lookupA (some m') name = lookupA (some m) name := by
  have hne : name ≠ '.' :: (T ++ ['.']) := by
    intro e
    rw [e] at hname
    exact hname rfl
  have hfree : ∀ pre suf, (Split name '.').tail = pre ++ suf → ∀ p ∈ suf, '.' ∉ p := by
    intro pre suf hps p hp
    apply Split_pieces_free name '.' p
    apply List.mem_of_mem_tail
    rw [hps]
    exact List.mem_append_right _ hp
  have hcand : ∀ pre suf, (Split name '.').tail = pre ++ suf → suf.length > 2 →
      '.' :: Join suf '.' ≠ '.' :: (T ++ ['.']) :=
    fun pre suf hps hl => wildcard_key_not_candidate T suf hT (hfree pre suf hps) hl
  refine ⟨hne, ?_, ?_⟩
  · intro hmem
    unfold testedKeys at hmem
    obtain ⟨pre, suf, h1, h2, h3⟩ := fallbackLoop_keys m _ _ hmem
    exact hcand pre suf h1 h2 h3.symm
  · have hloop : fallbackLoop m' (Split name '.').tail = fallbackLoop m (Split name '.').tail :=
      fallbackLoop_congr m m' _ (fun pre suf hps hl => hagree _ (hcand pre suf hps hl))
    have hexact := hagree name hne
    cases hg : m.get name with
    | some v => rw [lookupA_hit m name v hg, lookupA_hit m' name v (by rw [hexact, hg])]
    | none => rw [lookupA_miss m name hg, lookupA_miss m' name (by rw [hexact, hg]), hloop]

/-- Witness for C18: the table with the key `.com.` answers `foo.com.` and
`example.com.` as the empty table does. -/
theorem single_label_wildcard_never_matches_witness :
    "foo.com.".toList ≠ '.' :: ("com".toList ++ ['.']) ∧
    ('.' :: ("com".toList ++ ['.'])) ∉ testedKeys topLevelTable "foo.com.".toList ∧
    lookupA (some []) "foo.com.".toList = lookupA (some topLevelTable) "foo.com.".toList :=
  single_label_wildcard_never_matches topLevelTable [] "com".toList "foo.com.".toList
    (by decide) (by decide) (by decide)
    (fun k hk => by
      have h1 : Table.get topLevelTable k = none := by
        unfold topLevelTable
        rw [Table.get_cons, if_neg (fun e => hk e.symm)]
        rfl
      rw [h1]
      rfl)

/-- C19. Wildcard patterns come only from a first-label wildcard marker: with
a validator under which a hostname with a star is of the form `*.foo.com`, as
the comment on line 96 says, every hostname of an eligible entry whose first
label is not the marker is stored under `hostname + "."`; a hostname whose
first label is the marker is stored under `"." + the text after its first
dot + "."`; a key other than `hostname + "."` arises only when the first label
is the marker; and the table installed for the entry binds the key of the
hostname to the addresses of the entry. -/
theorem wildcard_only_from_first_label (d : Deps) (e : Config) (h0 : IstioServiceEntries)
    (vips : List IP) (host : Str)
    (hval : ValidatesWildcardForm d)
    (hel : Eligible d e vips) (hhost : host ∈ e.Spec.Hosts) :
    (firstLabel host ≠ ['*'] → hostKey host = .ok (host ++ ['.'])) ∧
    (firstLabel host = ['*'] →
      ∃ rest, host = '*' :: '.' :: rest ∧ hostKey host = .ok ('.' :: (rest ++ ['.']))) ∧
    (∀ key, hostKey host = .ok key → key ≠ host ++ ['.'] → firstLabel host = ['*']) ∧
    (∃ h1 tbl key, readServiceEntries d [e] h0 = .ok h1 ∧ h1.dnsEntries = some tbl ∧
      hostKey host = .ok key ∧ tbl.get key = some vips) := by
  have hform : ∀ x ∈ e.Spec.Hosts, Contains x '*' = true → ∃ rest, x = '*' :: '.' :: rest :=
    hval e.Name e.Namespace e.Spec hel.1
  have hplain : firstLabel host ≠ ['*'] → hostKey host = .ok (host ++ ['.']) := by
    intro hfl
    apply hostKey_plain
    by_contra hc
    have hs : Contains host '*' = true := by simpa using hc
    obtain ⟨rest, hrest⟩ := hform host hhost hs
    rw [hrest] at hfl
    exact hfl (firstLabel_of_star_dot rest)
  have hdots : ∀ x ∈ e.Spec.Hosts, Contains x '*' = true → Contains x '.' = true := by
    intro x hx hs
    obtain ⟨rest, hrest⟩ := hform x hx hs
    rw [hrest]
    simp [Contains]
  refine ⟨hplain, ?_, ?_, ?_⟩
  · intro hfl
    have hs : Contains host '*' = true := by
      rw [Contains_eq_true_iff]
      obtain ⟨p, ps, hp⟩ := List.exists_cons_of_ne_nil (Split_ne_nil host '.')
      have hj := Join_Split host '.'
      rw [hp] at hj
      have hpe : p = ['*'] := by simpa [firstLabel, hp] using hfl
      rw [← hj, hpe]
      cases ps with
      | nil => simp [Join]
      | cons r rs => rw [Join_cons _ _ _ (by simp)]; simp
    obtain ⟨rest, hrest⟩ := hform host hhost hs
    exact ⟨rest, hrest, by rw [hrest]; exact hostKey_wildcard rest⟩
  · intro key hk hne
    by_contra hfl
    rw [hplain hfl] at hk
    cases hk
    exact hne rfl
  · obtain ⟨tbl, hrun, hw, _⟩ := single_entry_table d e h0 vips hel hdots
    obtain ⟨key, hkey⟩ := hostKey_ok host (hdots host hhost)
    exact ⟨_, tbl, key, hrun, rfl, hkey, hw key ⟨host, hhost, hkey⟩⟩

/-- Witness for C19: under the validator that wants the form `*.foo.com`, the
hostname `a.example.com` is stored under `a.example.com.`, and the hostname
`*.example.com`, whose first label is the marker, under `.example.com.`, the
key the installed table binds to 10.0.0.2. -/
theorem wildcard_only_from_first_label_witness :
    hostKey "a.example.com".toList = .ok ("a.example.com".toList ++ ['.']) ∧
    (∃ rest, "*.example.com".toList = '*' :: '.' :: rest ∧
      hostKey "*.example.com".toList = .ok ('.' :: (rest ++ ['.']))) ∧
    (∃ h1 tbl key, readServiceEntries strictDeps [wildcardEntry] initialState = .ok h1 ∧
      h1.dnsEntries = some tbl ∧ hostKey "*.example.com".toList = .ok key ∧
      tbl.get key = some [ip10_0_0_2]) :=
  ⟨(wildcard_only_from_first_label strictDeps exactEntry initialState [ip10_0_0_1]
      "a.example.com".toList strictDeps_validates
      ⟨by decide, by decide, by decide, by decide, by decide⟩ (by decide)).1 (by decide),
    (wildcard_only_from_first_label strictDeps wildcardEntry initialState [ip10_0_0_2]
      "*.example.com".toList strictDeps_validates
      ⟨by decide, by decide, by decide, by decide, by decide⟩ (by decide)).2.1 (by decide),
    (wildcard_only_from_first_label strictDeps wildcardEntry initialState [ip10_0_0_2]
      "*.example.com".toList strictDeps_validates
      ⟨by decide, by decide, by decide, by decide, by decide⟩ (by decide)).2.2.2⟩

/-- C20. Most specific wildcard wins: in a table whose keys are all bound to
non-empty lists, for a dot-terminated query name that is no key and splits
into a first label `p0`, further leading labels `pre` and at least two last
labels `lbls`, when the wildcard key of the suffix `lbls` is in the table and
no wildcard key of a longer suffix is, the lookup returns the list stored
under the key of `lbls`, whatever keys of shorter suffixes the table has. -/
theorem most_specific_wildcard_wins (m : Table) (name p0 : Str) (pre lbls : List Str)
    (hinv : ∀ k ∈ m.keys, ∃ ips, m.get k = some ips ∧ ips ≠ [])
    (hsplit : Split name '.' = p0 :: (pre ++ (lbls ++ [[]])))
    (hl : 2 ≤ lbls.length)
    (hnokey : name ∉ m.keys)
    (hkey : ('.' :: Join (lbls ++ [[]]) '.') ∈ m.keys)
    (hlongest : ∀ pre1 pre2, pre = pre1 ++ pre2 → pre2 ≠ [] →
      ('.' :: Join (pre2 ++ (lbls ++ [[]])) '.') ∉ m.keys) :
    ∃ ips, m.get ('.' :: Join (lbls ++ [[]]) '.') = some ips ∧ ips ≠ [] ∧
      '.' :: Join (lbls ++ [[]]) '.' = '.' :: (Join lbls '.' ++ ['.']) ∧
      lookupA (some m) name = some ips := by
  obtain ⟨ips, hget, hne⟩ := hinv _ hkey
  have hlne : lbls ≠ [] := by intro e; rw [e] at hl; simp at hl
  have hform : '.' :: Join (lbls ++ [[]]) '.' = '.' :: (Join lbls '.' ++ ['.']) := by
    rw [Join_append lbls [[]] '.' hlne (by simp)]; rfl
  refine ⟨ips, hget, hne, hform, ?_⟩
  rw [lookupA_miss m name (Table.get_of_not_mem_keys m name hnokey), hsplit, List.tail_cons]
  apply fallbackLoop_first_hit m pre (lbls ++ [[]]) ips
  · simp; omega
  · exact hget
  · intro pre1 pre2 hp hne2
    exact Table.get_of_not_mem_keys m _ (hlongest pre1 pre2 hp hne2)

/-- Witness for C20: the table has the wildcard keys `.example.com.` and
`.bar.example.com.`; the query `x.y.bar.example.com.` gets the list of
`.bar.example.com.`, 10.0.0.3. -/
theorem most_specific_wildcard_wins_witness :
    ∃ ips, mixedTable.get ('.' :: Join (["bar".toList, "example".toList, "com".toList] ++ [[]]) '.')
        = some ips ∧ ips ≠ [] ∧
      '.' :: Join (["bar".toList, "example".toList, "com".toList] ++ [[]]) '.'
        = '.' :: (Join ["bar".toList, "example".toList, "com".toList] '.' ++ ['.']) ∧
      lookupA (some mixedTable) "x.y.bar.example.com.".toList = some ips :=
  most_specific_wildcard_wins mixedTable "x.y.bar.example.com.".toList "x".toList
    ["y".toList] ["bar".toList, "example".toList, "com".toList] mixedTable_inv
    (by decide) (by decide) (by decide) (by decide)
    (fun pre1 pre2 hp hne => by
      have h2 : pre2 = ["y".toList] := by
        cases pre1 with
        | nil => exact hp.symm
        | cons x xs =>
          have hlen : (["y".toList] : List Str).length = ((x :: xs) ++ pre2).length :=
            congrArg List.length hp
          simp only [List.length_cons, List.length_append, List.length_nil] at hlen
          have : pre2 = [] := List.length_eq_zero.mp (by omega)
          exact absurd this hne
      subst h2
      decide)

end IstioCoreDNS
